import Mathlib

/-!
Verification of the taskmux task-orchestration core against its design
specification.  The Lean definitions below are shallow embeddings of the
Python source files `taskmux/models.py`, `taskmux/hooks.py` and
`taskmux/tmux_manager.py`: pure functions are translated directly, stateful
methods become explicit state passing, and interactions with external
collaborators (the tmux server, subprocesses, the wall clock) are
parametrized by oracle functions that stand for the values those
collaborators return.
-/

set_option maxHeartbeats 1000000

namespace Taskmux

/-! ## Data model (taskmux/models.py)

`HookConfig` and `TaskConfig` mirror the pydantic models field by field
(integer fields are modelled as `Nat`; they are non-negative in every
configuration the validators accept and are only ever multiplied/compared).
A task collection `dict[str, TaskConfig]` is modelled as an association
list in insertion order, which is exactly the iteration order Python
guarantees for `dict`. -/
structure HookConfig where
  before_start : Option String := none
  after_start : Option String := none
  before_stop : Option String := none
  after_stop : Option String := none
deriving DecidableEq

structure TaskConfig where
  command : String
  auto_start : Bool := true
  cwd : Option String := none
  health_check : Option String := none
  health_interval : Nat := 10
  health_timeout : Nat := 5
  health_retries : Nat := 3
  depends_on : List String := []
  hooks : HookConfig := {}
deriving DecidableEq

abbrev Tasks := List (String × TaskConfig)

/-- The keys of the task mapping, in insertion order (`dict.keys()`). -/
def taskKeys (tasks : Tasks) : List String := tasks.map Prod.fst

/-- `dict.get(name)` on an association list (first binding wins). -/
def assocLookup {α : Type} (l : List (String × α)) (k : String) : Option α :=
  match l with
  | [] => none
  | (k', v) :: rest => if k = k' then some v else assocLookup rest k

/-- `dict[name] = v` on an association list: overwrite in place if the key
exists, else append (Python preserves insertion position on overwrite). -/
def assocSet {α : Type} (l : List (String × α)) (k : String) (v : α) :
    List (String × α) :=
  match l with
  | [] => [(k, v)]
  | (k', v') :: rest =>
      if k = k' then (k, v) :: rest else (k', v') :: assocSet rest k v

/-- `self.config.tasks[name].depends_on`, with `[]` for a missing key (the
orchestrator only indexes names that are known to be keys). -/
def depsOf (tasks : Tasks) (name : String) : List String :=
  match assocLookup tasks name with
  | some cfg => cfg.depends_on
  | none => []

/-! ## Hook runner (taskmux/hooks.py, `runHook`)

The subprocess call is abstracted by an oracle `exec_ : String → Nat → HookOutcome`
giving, for a command and the wall-clock ceiling passed to `subprocess.run`,
the outcome of the execution: normal completion with an exit code, a
`TimeoutExpired`, or any other launch/execution error.  `runHook` always
passes the fixed ceiling `30`. -/
inductive HookOutcome where
  | completed (returncode : Int)
  | timedOut
  | execError
deriving DecidableEq

def runHook (exec_ : String → Nat → HookOutcome) (hook_cmd : Option String) : Bool :=
  match hook_cmd with
  | none => true
  | some c =>
      match exec_ c 30 with
      | .completed rc => rc == 0
      | .timedOut => false
      | .execError => false

/-! ## Health evaluator (tmux_manager.py, `_is_pane_alive` / `is_task_healthy`)

The tmux server is abstracted by `sessionExists : Bool` and
`paneFg : Option String` (the `pane_current_command` of the task's pane,
`none` when the window/pane is missing or a libtmux call raised).  The
health-check subprocess is abstracted by `probe : Option Int` (`some rc` for
a completed run, `none` for `TimeoutExpired`/`OSError`). -/
def is_pane_alive (sessionExists : Bool) (paneFg : Option String) : Bool :=
  if !sessionExists then false
  else
    match paneFg with
    | some cmd => cmd != "" && cmd != "bash"
    | none => false

def is_task_healthy (tasks : Tasks) (task_name : String)
    (sessionExists : Bool) (paneFg : Option String) (probe : Option Int) : Bool :=
  match assocLookup tasks task_name with
  | none => false
  | some task_cfg =>
      match task_cfg.health_check with
      | none => is_pane_alive sessionExists paneFg
      | some _ =>
          match probe with
          | some rc => rc == 0
          | none => false

/-! ## Health records and auto-restart (tmux_manager.py,
`check_task_health` / `auto_restart_unhealthy_tasks`)

`self.task_health` is modelled by the association list of each task's
`"healthy"` field (the timestamp and status snapshot carry no logic).
`check_task_health` returns the measured health and the updated record map.
`auto_restart_unhealthy_tasks` folds over the configured task names,
collecting the names for which `restart_task` is invoked. -/
def check_task_health (healthNow : String → Bool)
    (task_health : List (String × Bool)) (task_name : String) :
    Bool × List (String × Bool) :=
  let is_healthy := healthNow task_name
  (is_healthy, assocSet task_health task_name is_healthy)

def auto_restart_unhealthy_tasks (healthNow : String → Bool)
    (sessionExists : Bool) (task_names : List String)
    (task_health : List (String × Bool)) :
    List (String × Bool) × List String :=
  if !sessionExists then (task_health, [])
  else
    task_names.foldl
      (fun acc task_name =>
        let checked := check_task_health healthNow acc.1 task_name
        if !checked.1 then
          -- NOTE: the source reads `prev_health` from `self.task_health`
          -- *after* `check_task_health` has already overwritten the record.
          let prev_health := ((assocLookup checked.2 task_name).getD true)
          if prev_health then (checked.2, acc.2 ++ [task_name])
          else (checked.2, acc.2)
        else (checked.2, acc.2))
      (task_health, [])

/-! ## Dependency wait (tmux_manager.py, `_wait_for_healthy`)

Sleeping is abstracted by the `elapsed` accumulator the source itself
maintains; the health probe is an oracle indexed by how many checks have
already been made.  The `fuel` argument bounds the loop; `none` models a
run of the source loop that does not terminate (which can only happen for
`interval = 0`).  The returned triple is (result, elapsed at return, total
number of health checks performed). -/
def waitLoop (probe : Nat → Bool) (interval timeout : Nat) :
    Nat → Nat → Nat → Option (Bool × Nat × Nat)
  | _, _, 0 => none
  | elapsed, checks, fuel + 1 =>
      if elapsed < timeout then
        if probe checks then some (true, elapsed, checks + 1)
        else waitLoop probe interval timeout (elapsed + interval) (checks + 1) fuel
      else
        some (probe checks, elapsed, checks + 1)

def wait_for_healthy (probe : Nat → Bool) (interval timeout : Nat) :
    Option (Bool × Nat × Nat) :=
  waitLoop probe interval timeout 0 0 (timeout + 1)

/-! ## Log differ (tmux_manager.py, `_find_new_lines` and the tail state)

`fnlSearch current prev_tail target k` models the backward scan
`for i in range(k - 1, -1, -1)` of `_find_new_lines`: it returns
`some current[i+1:]` at the highest index `i < k` where `current[i]` equals
the anchor line and the preceding window of `ctx = min(len(prev_tail), i+1)`
lines matches the tail of `prev_tail`, and `none` when the loop falls
through.  `prev_tail` is non-empty at every call site, so `ctx ≥ 1` and the
Python slices coincide with the `drop`/`take` expressions used here. -/
/-- The alignment test of `_find_new_lines` at index `i`:
`current[i] == target` and
`current[i - ctx + 1 : i + 1] == prev_tail[-ctx:]` for
`ctx = min(len(prev_tail), i + 1)`. -/
def fnlMatchAt (current prev_tail : List String) (target : String) (i : Nat) : Prop :=
  current.getD i "" = target ∧
    (current.drop (i + 1 - min prev_tail.length (i + 1))).take
        (min prev_tail.length (i + 1))
      = prev_tail.drop (prev_tail.length - min prev_tail.length (i + 1))

instance (current prev_tail : List String) (target : String) (i : Nat) :
    Decidable (fnlMatchAt current prev_tail target i) := by
  unfold fnlMatchAt
  infer_instance

def fnlSearch (current prev_tail : List String) (target : String) :
    Nat → Option (List String)
  | 0 => none
  | k + 1 =>
      if fnlMatchAt current prev_tail target k then
        some (current.drop (k + 1))
      else fnlSearch current prev_tail target k

def find_new_lines (current prev_tail : List String) : List String :=
  if prev_tail.isEmpty then current
  else
    match fnlSearch current prev_tail (prev_tail.getLastD "") current.length with
    | some r => r
    | none => current

/-- `output[-50:]` — the bounded remembered tail kept by `_tail_panes`. -/
def tailOf (l : List String) : List String := l.drop (l.length - 50)

def execSample : String → Nat → HookOutcome := fun c _ =>
  if c = "true" then .completed 0
  else if c = "slow" then .timedOut
  else .execError

def tasksC7 : Tasks := [("web", { command := "npm run dev" })]

/-! ## Task-graph validation (models.py, `TaskmuxConfig._validate_depends_on`)

The validator runs two passes in source order: a reference/self-dependency
pass over `self.tasks.items()` (insertion order), then a three-colour DFS
over all task names.  Colours are `0 = WHITE`, `1 = GRAY`, `2 = BLACK`,
modelled as a total function `String → Nat` (the Python dict is keyed by the
task names and, after the first pass succeeds, is only ever indexed by task
names).  Python iterates the DFS roots over `set(self.tasks.keys())`, whose
order is unspecified; the embedding therefore takes the root order as a
parameter `roots` and the theorems quantify over it.  Recursion is bounded
by explicit fuel; `none` models a run the source could not perform (never
reached with the fuel `validate_depends_on` supplies, as proved below). -/
def unknownDepMsg (name dep : String) : String :=
  "Task '" ++ name ++ "' depends on unknown task '" ++ dep ++ "'"

def selfDepMsg (name : String) : String :=
  "Task '" ++ name ++ "' depends on itself"

def cycleMsg (dep : String) : String :=
  "Dependency cycle detected involving '" ++ dep ++ "'"

def checkDeps (task_names : List String) (name : String) :
    List String → Except String Unit
  | [] => .ok ()
  | dep :: rest =>
      if dep ∉ task_names then .error (unknownDepMsg name dep)
      else if dep = name then .error (selfDepMsg name)
      else checkDeps task_names name rest

def checkRefsSelf (task_names : List String) : Tasks → Except String Unit
  | [] => .ok ()
  | (name, cfg) :: rest =>
      match checkDeps task_names name cfg.depends_on with
      | .error e => .error e
      | .ok _ => checkRefsSelf task_names rest

def colorSet (c : String → Nat) (k : String) (v : Nat) : String → Nat :=
  fun x => if x = k then v else c x

def dfsFoldF
    (visit : String → (String → Nat) → Option (Except String (String → Nat))) :
    List String → (String → Nat) → Option (Except String (String → Nat))
  | [], color => some (.ok color)
  | dep :: rest, color =>
      if color dep = 1 then some (.error (cycleMsg dep))
      else if color dep = 0 then
        match visit dep color with
        | none => none
        | some (.error e) => some (.error e)
        | some (.ok c2) => dfsFoldF visit rest c2
      else dfsFoldF visit rest color

def dfsVisit (deps : String → List String) : Nat → String → (String → Nat) →
    Option (Except String (String → Nat))
  | 0, _, _ => none
  | fuel + 1, node, color =>
      match dfsFoldF (fun d c => dfsVisit deps fuel d c) (deps node)
          (colorSet color node 1) with
      | none => none
      | some (.error e) => some (.error e)
      | some (.ok c2) => some (.ok (colorSet c2 node 2))

/-- The inner `for dep in self.tasks[node].depends_on` loop of `dfs`,
specialised to recursing with the given fuel. -/
def dfsFold (deps : String → List String) (fuel : Nat) :
    List String → (String → Nat) → Option (Except String (String → Nat)) :=
  dfsFoldF (fun d c => dfsVisit deps fuel d c)

def dfsRoots (deps : String → List String) (fuel : Nat) :
    List String → (String → Nat) → Option (Except String (String → Nat))
  | [], c => some (.ok c)
  | r :: rest, c =>
      if c r = 0 then
        match dfsVisit deps fuel r c with
        | none => none
        | some (.error e) => some (.error e)
        | some (.ok c2) => dfsRoots deps fuel rest c2
      else dfsRoots deps fuel rest c

def validate_depends_on (tasks : Tasks) (roots : List String) :
    Option (Except String Unit) :=
  match checkRefsSelf (taskKeys tasks) tasks with
  | .error e => some (.error e)
  | .ok _ =>
      match dfsRoots (depsOf tasks) ((taskKeys tasks).length + 1) roots
          (fun _ => 0) with
      | none => none
      | some (.error e) => some (.error e)
      | some (.ok _) => some (.ok ())

def edgeRel (deps : String → List String) (x y : String) : Prop := y ∈ deps x

/-- The dependency edge relation: `depEdge tasks x y` iff task `x` declares
`y` in its `depends_on` list. -/
def depEdge (tasks : Tasks) : String → String → Prop := edgeRel (depsOf tasks)

/-! ### DFS correctness

`DfsInv deps color bl` relates a colour map to the list `bl` of nodes in the
order they turned black: blacks are exactly the members of `bl`, `bl` has no
duplicates, every dependency of a black node turned black strictly earlier,
and colours stay in `{0,1,2}`.  `GrayReach deps color cur` says every gray
node is a DFS ancestor of `cur` (it reaches `cur` along dependency edges). -/
structure DfsInv (deps : String → List String) (color : String → Nat)
    (bl : List String) : Prop where
  black_iff : ∀ x, color x = 2 ↔ x ∈ bl
  nodup : bl.Nodup
  order : ∀ k n, bl[k]? = some n → ∀ d ∈ deps n, d ∈ bl.take k
  le2 : ∀ x, color x ≤ 2

def GrayReach (deps : String → List String) (color : String → Nat)
    (cur : String) : Prop :=
  ∀ g, color g = 1 → Relation.ReflTransGen (edgeRel deps) g cur

def VisitSpec (deps : String → List String) (fuel : Nat) : Prop :=
  ∀ node color bl,
    DfsInv deps color bl → color node = 0 →
    (∀ c2, dfsVisit deps fuel node color = some (.ok c2) →
      ∃ ext, DfsInv deps c2 (bl ++ ext) ∧ node ∈ ext ∧
        (∀ x, c2 x = 1 ↔ color x = 1)) ∧
    (∀ msg, dfsVisit deps fuel node color = some (.error msg) →
      GrayReach deps color node →
      ∃ t, Relation.TransGen (edgeRel deps) t t ∧ msg = cycleMsg t)

def FoldSpec (deps : String → List String) (fuel : Nat) : Prop :=
  ∀ ds cur color bl,
    DfsInv deps color bl → (∀ d ∈ ds, d ∈ deps cur) →
    (∀ c2, dfsFold deps fuel ds color = some (.ok c2) →
      ∃ ext, DfsInv deps c2 (bl ++ ext) ∧
        (∀ x, c2 x = 1 ↔ color x = 1) ∧ ∀ d ∈ ds, c2 d = 2) ∧
    (∀ msg, dfsFold deps fuel ds color = some (.error msg) →
      GrayReach deps color cur →
      ∃ t, Relation.TransGen (edgeRel deps) t t ∧ msg = cycleMsg t)

/-! ### Fuel sufficiency -/
def whiteCount (names : List String) (c : String → Nat) : Nat :=
  (names.filter (fun n => c n == 0)).length

def VisitFuel (deps : String → List String) (names : List String)
    (fuel : Nat) : Prop :=
  ∀ node color bl, DfsInv deps color bl →
    (∀ n, ∀ d ∈ deps n, d ∈ names) → names.Nodup →
    node ∈ names → color node = 0 → whiteCount names color < fuel →
    dfsVisit deps fuel node color ≠ none

def tasksC4 : Tasks :=
  [("a", { command := "run-a", depends_on := ["b"] }),
   ("b", { command := "run-b", depends_on := ["a"] })]

/-! ## Scheduler (tmux_manager.py, `_toposort_tasks`)

Kahn's algorithm over a subset of task names.  `in_degree0` and
`dependentsOf` are the dictionaries the source builds before the loop
(`dependentsOf` is the content of `dependents[node]`, valid for
`node ∈ task_names`, which is the only way the loop indexes it);
`processDeps` is the inner `for dep in dependents[node]` loop;
`kahnLoop` is the `while queue` loop with the dequeued-node count bounded by
fuel (`none` models a run longer than the fuel, which the supplied fuel
`task_names.length + 1` makes unreachable for duplicate-free subsets).
In-degrees are `Int`, as in Python, so decrements below zero never compare
equal to zero. -/
def subsetDeps (tasks : Tasks) (names : List String) (n : String) :
    List String :=
  (depsOf tasks n).filter (fun d => names.contains d)

def in_degree0 (tasks : Tasks) (names : List String) (n : String) : Int :=
  ((subsetDeps tasks names n).length : Int)

def dependentsOf (tasks : Tasks) (names : List String) (node : String) :
    List String :=
  names.flatMap (fun n =>
    (depsOf tasks n).filterMap (fun dep => if dep = node then some n else none))

def processDeps : List String → (String → Int) → List String →
    (String → Int) × List String
  | [], indeg, queue => (indeg, queue)
  | d :: rest, indeg, queue =>
      let v := indeg d - 1
      let indeg' := fun x => if x = d then v else indeg x
      if v = 0 then processDeps rest indeg' (queue ++ [d])
      else processDeps rest indeg' queue

def kahnLoop (dependents : String → List String) :
    Nat → List String → (String → Int) → List String → Option (List String)
  | _, [], _, result => some result
  | 0, _ :: _, _, _ => none
  | fuel + 1, node :: rest, indeg, result =>
      kahnLoop dependents fuel
        (processDeps (dependents node) indeg rest).2
        (processDeps (dependents node) indeg rest).1
        (result ++ [node])

def toposort_tasks (tasks : Tasks) (task_names : List String) :
    Option (Except String (List String)) :=
  match kahnLoop (dependentsOf tasks task_names) (task_names.length + 1)
      (task_names.filter (fun n => in_degree0 tasks task_names n == 0))
      (in_degree0 tasks task_names) [] with
  | none => none
  | some result =>
      if result.length != task_names.length then
        some (.error "Dependency cycle detected in tasks")
      else some (.ok result)

/-- The loop invariant of `_toposort_tasks`: `result` is the processed
prefix, `queue` the pending zero-in-degree nodes.  In-degrees count the
still-unprocessed in-subset dependencies; the queue holds exactly the
unprocessed nodes whose in-subset dependencies are all processed; processed
nodes appear after all of their in-subset dependencies. -/
structure KahnInv (tasks : Tasks) (names : List String)
    (queue : List String) (indeg : String → Int) (result : List String) :
    Prop where
  nodup : (result ++ queue).Nodup
  subset : ∀ x ∈ result ++ queue, x ∈ names
  indeg_eq : ∀ n ∈ names, indeg n
      = ((((subsetDeps tasks names n).filter
            (fun d => !result.contains d)).length : Nat) : Int)
  queue_iff : ∀ n ∈ names,
      (n ∈ queue ↔ n ∉ result ∧ ∀ d ∈ subsetDeps tasks names n, d ∈ result)
  order : ∀ k m, result[k]? = some m →
      ∀ d ∈ subsetDeps tasks names m, d ∈ result.take k

/-! ## Claim C3 — topological order over a subset -/
def tasksC3 : Tasks :=
  [("db", { command := "run-db" }),
   ("api", { command := "run-api", depends_on := ["db"] }),
   ("web", { command := "run-web", depends_on := ["api"] })]

/-! ## Lifecycle orchestrator as an event trace (tmux_manager.py,
`start_task` / `stop_task` / `start_all`)

Side effects are modelled as a list of events in execution order.  Hook
outcomes are abstracted by `hookOk : String → Bool` (the value `runHook`
returns for that command) and the dependency wait of `start_all` by
`waitOk : String → Nat → Bool` (the value `_wait_for_healthy dep timeout`
returns; the model passes the derived timeout
`health_retries × health_interval` exactly as the source does).  The tmux
session is abstracted by `sessionExists` and the window-name list
`windows`; a live window's active pane is taken to exist, which is what
libtmux guarantees for the windows the source manipulates. -/
inductive Event where
  | hookRun (cmd : String) (task : Option String)
  | warnDepNotRunning (dep : String)
  | warnDepNotHealthy (dep task : String)
  | createdSession
  | renamedWindow (task : String)
  | createdWindow (task : String)
  | sentKeys (task : String) (text : String)
  | sentInterrupt (task : String)
  | printed (s : String)
deriving DecidableEq

/-- `runHook`'s result together with the execution event it emits (`none`
commands execute nothing and succeed). -/
def runHookEv (hookOk : String → Bool) (cmd : Option String)
    (task : Option String) : Bool × List Event :=
  match cmd with
  | none => (true, [])
  | some c => (hookOk c, [Event.hookRun c task])

def start_task_events (tasks : Tasks) (ghooks : HookConfig) (name : String)
    (sessionExists : Bool) (windows : List String) (hookOk : String → Bool) :
    List Event :=
  match assocLookup tasks name with
  | none => [Event.printed ("Task '" ++ name ++ "' not found in config")]
  | some task_cfg =>
      let sessEvs := if sessionExists then [] else [Event.createdSession]
      if windows.contains name then
        sessEvs ++ [Event.printed ("Task '" ++ name ++ "' already running")]
      else
        let warns := task_cfg.depends_on.filterMap (fun dep =>
          if windows.contains dep then none
          else some (Event.warnDepNotRunning dep))
        let g := runHookEv hookOk ghooks.before_start (some name)
        if !g.1 then sessEvs ++ warns ++ g.2
        else
          let tk := runHookEv hookOk task_cfg.hooks.before_start (some name)
          if !tk.1 then sessEvs ++ warns ++ g.2 ++ tk.2
          else
            let realize :=
              if windows.length = 1 ∧ windows.headD "" ≠ name then
                if windows.headD "" ∈ ["bash", "zsh", "sh", "fish"] then
                  [Event.renamedWindow name] ++
                  (match task_cfg.cwd with
                   | some c => [Event.sentKeys name ("cd " ++ c)]
                   | none => []) ++
                  [Event.sentKeys name task_cfg.command]
                else
                  [Event.createdWindow name,
                   Event.sentKeys name task_cfg.command]
              else
                [Event.createdWindow name,
                 Event.sentKeys name task_cfg.command]
            sessEvs ++ warns ++ g.2 ++ tk.2 ++ realize ++
              (runHookEv hookOk task_cfg.hooks.after_start (some name)).2 ++
              (runHookEv hookOk ghooks.after_start (some name)).2 ++
              [Event.printed ("Started task '" ++ name ++ "'")]

def stop_task_events (tasks : Tasks) (ghooks : HookConfig)
    (session_name name : String) (sessionExists : Bool)
    (windows : List String) (hookOk : String → Bool) : List Event :=
  if !sessionExists then
    [Event.printed ("Session '" ++ session_name ++ "' doesn't exist")]
  else
    match assocLookup tasks name with
    | none => [Event.printed ("Task '" ++ name ++ "' not found in config")]
    | some task_cfg =>
        if !windows.contains name then
          [Event.printed ("Task '" ++ name ++ "' not running")]
        else
          (runHookEv hookOk ghooks.before_stop (some name)).2 ++
          (runHookEv hookOk task_cfg.hooks.before_stop (some name)).2 ++
          [Event.sentInterrupt name] ++
          (runHookEv hookOk task_cfg.hooks.after_stop (some name)).2 ++
          (runHookEv hookOk ghooks.after_stop (some name)).2 ++
          [Event.printed ("Stopped task '" ++ name ++ "'")]

/-- The inner dependency wait of `start_all`: scan `depends_on` in order,
waiting (with the derived timeout) for each dependency that is itself an
auto-start task; return the first dependency whose wait fails, if any. -/
def depScan (auto : Tasks) (waitOk : String → Nat → Bool) :
    List String → Option String
  | [] => none
  | dep :: rest =>
      match assocLookup auto dep with
      | none => depScan auto waitOk rest
      | some dep_cfg =>
          if waitOk dep (dep_cfg.health_retries * dep_cfg.health_interval) then
            depScan auto waitOk rest
          else some dep

def perTaskEvents (auto : Tasks) (waitOk : String → Nat → Bool)
    (hookOk : String → Bool) (first : Bool) (name : String)
    (task_cfg : TaskConfig) : Bool × List Event :=
  match depScan auto waitOk task_cfg.depends_on with
  | some dep => (first, [Event.warnDepNotHealthy dep name])
  | none =>
      (if first then false else first,
        (runHookEv hookOk task_cfg.hooks.before_start (some name)).2 ++
        (if first then
            [Event.renamedWindow name] ++
            (match task_cfg.cwd with
             | some c => [Event.sentKeys name ("cd " ++ c)]
             | none => []) ++
            [Event.sentKeys name task_cfg.command]
          else
            [Event.createdWindow name,
             Event.sentKeys name task_cfg.command]) ++
        (runHookEv hookOk task_cfg.hooks.after_start (some name)).2)

def foldTasks (auto : Tasks) (waitOk : String → Nat → Bool)
    (hookOk : String → Bool) : Tasks → Bool → List Event
  | [], _ => []
  | (name, cfg) :: rest, first =>
      (perTaskEvents auto waitOk hookOk first name cfg).2 ++
        foldTasks auto waitOk hookOk rest
          (perTaskEvents auto waitOk hookOk first name cfg).1

/-- `auto_tasks[task_name]` resolution along the sorted order. -/
def orderedTasks (auto : Tasks) (sorted_names : List String) : Tasks :=
  sorted_names.filterMap (fun n => (assocLookup auto n).map (fun c => (n, c)))

def start_all_events (session_name : String) (global_auto_start : Bool)
    (tasks : Tasks) (ghooks : HookConfig) (sessionExists : Bool)
    (hookOk : String → Bool) (waitOk : String → Nat → Bool) :
    Option (List Event) :=
  if sessionExists then
    some [Event.printed ("Session '" ++ session_name ++ "' already exists")]
  else if !global_auto_start then
    some [Event.createdSession,
      Event.printed ("Created session '" ++ session_name ++
        "' (auto_start disabled, no tasks launched)")]
  else
    let auto := tasks.filter (fun p => p.2.auto_start)
    if auto.isEmpty then
      some [Event.printed "No auto-start tasks defined in config"]
    else
      match toposort_tasks tasks (taskKeys auto) with
      | some (.ok sorted_names) =>
          if !(runHookEv hookOk ghooks.before_start none).1 then
            some (runHookEv hookOk ghooks.before_start none).2
          else
            some ((runHookEv hookOk ghooks.before_start none).2 ++
              [Event.createdSession] ++
              foldTasks auto waitOk hookOk
                (orderedTasks auto sorted_names) true ++
              (runHookEv hookOk ghooks.after_start none).2 ++
              [Event.printed ("Started session '" ++ session_name ++
                "' with " ++ toString auto.length ++ " tasks")])
      | _ => none

/-- Events that realize task `t`'s command in a pane. -/
def realizesTask (t : String) : Event → Prop
  | Event.renamedWindow t' => t' = t
  | Event.createdWindow t' => t' = t
  | Event.sentKeys t' _ => t' = t
  | _ => False

instance (t : String) (e : Event) : Decidable (realizesTask t e) := by
  unfold realizesTask
  cases e <;> infer_instance

/-- The task an event is about, if any. -/
def eventTask : Event → Option String
  | Event.hookRun _ task => task
  | Event.warnDepNotHealthy _ task => some task
  | Event.renamedWindow task => some task
  | Event.createdWindow task => some task
  | Event.sentKeys task _ => some task
  | Event.sentInterrupt task => some task
  | _ => none

def foldFirst (auto : Tasks) (waitOk : String → Nat → Bool)
    (hookOk : String → Bool) : Tasks → Bool → Bool
  | [], f => f
  | (n, cfg) :: rest, f =>
      foldFirst auto waitOk hookOk rest
        (perTaskEvents auto waitOk hookOk f n cfg).1

def cfgC10 : TaskConfig := { command := "run-db" }

def cfgC9 : TaskConfig :=
  { command := "npm run dev", depends_on := ["db"],
    hooks := { before_start := some "tb", after_start := some "ta",
               before_stop := some "sb", after_stop := some "sa" } }

def tasksC9 : Tasks := [("web", cfgC9)]

def ghooksC9 : HookConfig :=
  { before_start := some "gb", after_start := some "ga",
    before_stop := some "gsb", after_stop := some "gsa" }

def hookOkA : String → Bool := fun _ => false

def hookOkB : String → Bool := fun c => c == "gb"

def hookOkC : String → Bool := fun c => c == "gb" || c == "tb"

def cfgDb : TaskConfig := { command := "run-db" }

def cfgApi : TaskConfig := { command := "run-api", depends_on := ["db"] }

def tasksC6 : Tasks := [("db", cfgDb), ("api", cfgApi)]

/-! ## Claim C8 — hook runner semantics -/
/-- **C8.** The hook runner returns success for an absent command without
executing anything; for a present command, run with the fixed 30-second
ceiling, it succeeds iff the exit code is zero, and a timeout or any
execution error yields failure.  (The runner is a total function of the
execution outcome, so no exception escapes it.) -/
theorem c8_hook_runner (exec_ : String → Nat → HookOutcome) (c : String) (rc : Int) :
    runHook exec_ none = true ∧
    (exec_ c 30 = .completed rc → (runHook exec_ (some c) = true ↔ rc = 0)) ∧
    (exec_ c 30 = .timedOut → runHook exec_ (some c) = false) ∧
    (exec_ c 30 = .execError → runHook exec_ (some c) = false) := by
  refine ⟨rfl, ?_, ?_, ?_⟩ <;> intro h <;> simp [runHook, h]

theorem c8_hook_runner_witness :
    runHook execSample none = true ∧
    (runHook execSample (some "true") = true ↔ (0 : Int) = 0) ∧
    runHook execSample (some "slow") = false ∧
    runHook execSample (some "nope") = false :=
  ⟨(c8_hook_runner execSample "true" 0).1,
   (c8_hook_runner execSample "true" 0).2.1 (by decide),
   (c8_hook_runner execSample "slow" 0).2.2.1 (by decide),
   (c8_hook_runner execSample "nope" 0).2.2.2 (by decide)⟩

/-! ## Claim C7 — liveness fallback -/
/-- **C7.** For a task with no health-check command, `is_task_healthy` is the
liveness fallback: healthy iff the pane's foreground command is neither the
empty string nor a member of the fixed idle-shell allow-list (`["bash"]` in
the source); in particular `"node"` is healthy and `"bash"` is not. -/
theorem c7_liveness_fallback (tasks : Tasks) (name : String) (cfg : TaskConfig)
    (fg : String) (probe : Option Int)
    (hlook : assocLookup tasks name = some cfg)
    (hhc : cfg.health_check = none) :
    is_task_healthy tasks name true (some fg) probe = true ↔
      (fg ≠ "" ∧ fg ∉ ["bash"]) := by
  simp [is_task_healthy, hlook, hhc, is_pane_alive]

theorem c7_liveness_fallback_witness :
    is_task_healthy tasksC7 "web" true (some "node") none = true ∧
    is_task_healthy tasksC7 "web" true (some "bash") none = false := by
  constructor
  · exact (c7_liveness_fallback tasksC7 "web" _ "node" none rfl rfl).mpr
      (by decide)
  · have h := c7_liveness_fallback tasksC7 "web" { command := "npm run dev" }
      "bash" none rfl rfl
    revert h
    decide

/-! ## Claim C1 — auto-restart on healthy→unhealthy transition (code bug)

In the source, `auto_restart_unhealthy_tasks` calls `check_task_health`
(which overwrites `self.task_health[task_name]` with the *current* health)
and only then reads `prev_health` from `self.task_health`.  The read
therefore always sees the value just written: whenever the current check is
unhealthy, `prev_health` is `False` and `restart_task` is never invoked —
even on a healthy→unhealthy transition.  The theorem below evaluates the
embedded code at such a transition: task `"t"` is recorded healthy, the
current check is unhealthy, yet the list of restarted tasks is empty (while
the health record is updated to the new measurement). -/
/-- **C1.** At the failing input — prior record healthy, current check
unhealthy — the code updates the record but issues no restart, contradicting
the claimed edge-triggered restart. -/
theorem c1_auto_restart_dead :
    auto_restart_unhealthy_tasks (fun _ => false) true ["t"] [("t", true)]
      = ([("t", false)], []) := by
  decide

/-! ## Claim C5 — bounded wait-until-healthy -/
/-- Main loop lemma for `waitLoop` under an always-unhealthy probe. -/
theorem waitLoop_allFalse (probe : Nat → Bool) (hprobe : ∀ n, probe n = false)
    (interval timeout : Nat) (hpos : 0 < interval) :
    ∀ fuel elapsed checks, timeout - elapsed < fuel →
      ∃ k, waitLoop probe interval timeout elapsed checks fuel
            = some (false, elapsed + k * interval, checks + k + 1) ∧
        timeout ≤ elapsed + k * interval ∧
        (elapsed ≤ timeout → elapsed + k * interval < timeout + interval) ∧
        (timeout ≤ elapsed → k = 0) := by
  intro fuel
  induction fuel with
  | zero => intro elapsed checks h; omega
  | succ fuel ih =>
      intro elapsed checks h
      by_cases hlt : elapsed < timeout
      · obtain ⟨k, hk, hge, hub, hz⟩ := ih (elapsed + interval) (checks + 1) (by omega)
        have hmul : (k + 1) * interval = k * interval + interval := by ring
        refine ⟨k + 1, ?_, by omega, ?_, by omega⟩
        · simp only [waitLoop, if_pos hlt, hprobe checks, Bool.false_eq_true,
            if_false]
          rw [hk]
          have h1 : elapsed + interval + k * interval = elapsed + (k + 1) * interval := by
            omega
          have h2 : checks + 1 + k + 1 = checks + (k + 1) + 1 := by omega
          rw [h1, h2]
        · intro _
          by_cases hle : elapsed + interval ≤ timeout
          · have := hub hle
            omega
          · have hk0 : k = 0 := hz (by omega)
            subst hk0
            omega
      · refine ⟨0, ?_, by omega, by omega, fun _ => rfl⟩
        simp only [waitLoop, if_neg hlt, hprobe checks]
        simp

/-- **C5.** With a strictly positive polling interval and a probe that always
reports unhealthy, `_wait_for_healthy` terminates and returns `false`; it
performs `iters` in-loop checks plus exactly one final check after the
deadline (whose measurement is the returned value), having accumulated
`iters × interval` elapsed time with `timeout ≤ iters × interval <
timeout + interval`; in particular for the derived timeout
`retries × interval` the elapsed time is exactly `retries × interval`. -/
theorem c5_wait_until_healthy (interval timeout : Nat) (hpos : 0 < interval)
    (probe : Nat → Bool) (hprobe : ∀ n, probe n = false) :
    ∃ iters, wait_for_healthy probe interval timeout
        = some (false, iters * interval, iters + 1) ∧
      timeout ≤ iters * interval ∧
      iters * interval < timeout + interval ∧
      (∀ retries, timeout = retries * interval → iters = retries) := by
  obtain ⟨k, hk, hge, hub, -⟩ :=
    waitLoop_allFalse probe hprobe interval timeout hpos (timeout + 1) 0 0 (by omega)
  refine ⟨k, ?_, by omega, by have := hub (by omega); omega, ?_⟩
  · simpa [wait_for_healthy] using hk
  · intro retries hret
    subst hret
    have h1 : retries * interval ≤ k * interval := by omega
    have h2 : k * interval < (retries + 1) * interval := by
      have := hub (by omega)
      ring_nf
      ring_nf at this
      omega
    have hk1 : k < retries + 1 := Nat.lt_of_mul_lt_mul_right h2
    have hk2 : retries ≤ k := Nat.le_of_mul_le_mul_right h1 hpos
    omega

theorem c5_wait_until_healthy_witness :
    ∃ iters, wait_for_healthy (fun _ => false) 1 2
        = some (false, iters * 1, iters + 1) ∧
      2 ≤ iters * 1 ∧
      iters * 1 < 2 + 1 ∧
      (∀ retries, 2 = retries * 1 → iters = retries) :=
  c5_wait_until_healthy 1 2 (by decide) (fun _ => false) (fun _ => rfl)

/-! ## Claim C2 — log differ round trip -/
theorem fnlSearch_eq_none (current prev_tail : List String) (target : String) :
    ∀ k, (∀ i, i < k → ¬ fnlMatchAt current prev_tail target i) →
      fnlSearch current prev_tail target k = none := by
  intro k
  induction k with
  | zero => intro _; rfl
  | succ k ih =>
      intro h
      simp only [fnlSearch]
      rw [if_neg (h k (by omega))]
      exact ih fun i hi => h i (by omega)

theorem fnlSearch_skip (current prev_tail : List String) (target : String) :
    ∀ k m, m ≤ k → (∀ i, m ≤ i → i < k → ¬ fnlMatchAt current prev_tail target i) →
      fnlSearch current prev_tail target k = fnlSearch current prev_tail target m := by
  intro k
  induction k with
  | zero =>
      intro m hm _
      have hm0 : m = 0 := by omega
      rw [hm0]
  | succ k ih =>
      intro m hm h
      rcases Nat.eq_or_lt_of_le hm with heq | hlt
      · rw [heq]
      · simp only [fnlSearch]
        rw [if_neg (h k (by omega) (by omega))]
        exact ih m (by omega) fun i h1 h2 => h i h1 (by omega)

theorem getD_last (l : List String) (d : String) :
    l.getD (l.length - 1) d = l.getLastD d := by
  simp [List.getD, ← List.getLast?_eq_getElem?, List.getLastD_eq_getLast?]

/-- Round-trip half of the amended C2: if the anchor line (the last line of
`C1`) does not occur among the appended lines, the differ returns exactly
the appended lines. -/
theorem find_new_lines_roundtrip (C1 L : List String) (hL : L ≠ [])
    (hanchor : ∀ x ∈ L, C1.getLast? ≠ some x) :
    find_new_lines (C1 ++ L) (tailOf C1) = L := by
  by_cases hC1 : C1 = []
  · subst hC1
    simp [find_new_lines, tailOf]
  · have hlen1 : 1 ≤ C1.length := by
      cases C1 with
      | nil => exact absurd rfl hC1
      | cons a t => simp
    set T := tailOf C1 with hTdef
    have hTlen : T.length = C1.length - (C1.length - 50) := by
      simp [hTdef, tailOf]
    have hTne : T ≠ [] := by
      intro habs
      have : T.length = 0 := by rw [habs]; rfl
      omega
    have hPT : C1.take (C1.length - 50) ++ T = C1 := by
      simp [hTdef, tailOf, List.take_append_drop]
    set P := C1.take (C1.length - 50) with hPdef
    have hPlen : P.length = C1.length - 50 := by
      simp [hPdef]
    have hlast : C1.getLast? = T.getLast? := by
      conv_lhs => rw [← hPT]
      exact List.getLast?_append_of_ne_nil P hTne
    obtain ⟨y, hy⟩ : ∃ y, T.getLast? = some y := by
      cases hTy : T.getLast? with
      | none =>
          rw [List.getLast?_eq_none_iff] at hTy
          exact absurd hTy hTne
      | some y => exact ⟨y, rfl⟩
    have htarget : T.getLastD "" = y := by
      rw [List.getLastD_eq_getLast?, hy]
      rfl
    have hTempty : T.isEmpty = false := by
      cases hT2 : T with
      | nil => exact absurd hT2 hTne
      | cons a t => rfl
    -- no index at or beyond C1.length matches the anchor
    have hamatch : ∀ i, C1.length ≤ i → i < (C1 ++ L).length →
        ¬ fnlMatchAt (C1 ++ L) T (T.getLastD "") i := by
      intro i hge hltN hmat
      obtain ⟨heq, -⟩ := hmat
      have hiL : i - C1.length < L.length := by
        simp [List.length_append] at hltN
        omega
      have hsplit : (C1 ++ L).getD i "" = L.getD (i - C1.length) "" := by
        have hi : i = C1.length + (i - C1.length) := by omega
        rw [hi]
        simp [List.getD, List.getElem?_append_right]
      have hmem : L.getD (i - C1.length) "" ∈ L := by
        rw [List.getD_eq_getElem L "" hiL]
        exact List.getElem_mem hiL
      have := hanchor _ hmem
      rw [hsplit] at heq
      rw [heq, htarget] at this
      rw [hlast, hy] at this
      exact this rfl
    -- the match succeeds at index C1.length - 1
    have hTle : T.length ≤ C1.length := by omega
    have hmatch : fnlMatchAt (C1 ++ L) T (T.getLastD "") (C1.length - 1) := by
      constructor
      · have h1 : (C1 ++ L).getD (C1.length - 1) "" = C1.getD (C1.length - 1) "" := by
          simp [List.getD, List.getElem?_append, Nat.sub_lt_of_pos_le Nat.one_pos hlen1]
        rw [h1, getD_last]
        rw [List.getLastD_eq_getLast?, List.getLastD_eq_getLast?, hlast]
      · have hctx : min T.length (C1.length - 1 + 1) = T.length := by omega
        rw [hctx]
        have hidx : C1.length - 1 + 1 - T.length = P.length := by omega
        rw [hidx]
        have hdrop : (C1 ++ L).drop P.length = T ++ L := by
          conv_lhs => rw [← hPT]
          rw [List.append_assoc]
          exact List.drop_left P (T ++ L)
        rw [hdrop, List.take_left, Nat.sub_self, List.drop_zero]
    -- assemble
    have hsearch : fnlSearch (C1 ++ L) T (T.getLastD "") (C1 ++ L).length
        = some L := by
      have hskip := fnlSearch_skip (C1 ++ L) T (T.getLastD "")
        (C1 ++ L).length C1.length (by simp) hamatch
      rw [hskip]
      have hsucc : C1.length = (C1.length - 1) + 1 := by omega
      rw [hsucc]
      simp only [fnlSearch]
      rw [if_pos hmatch, ← hsucc, List.drop_left]
    simp only [find_new_lines, hTempty, Bool.false_eq_true, if_false, hsearch]

/-- No-alignment half of C2: when no index of the current capture passes the
suffix-aligned match test, the differ returns the entire current capture. -/
theorem find_new_lines_no_match (current prev_tail : List String)
    (h0 : prev_tail ≠ [])
    (h : ∀ i, i < current.length →
        ¬ fnlMatchAt current prev_tail (prev_tail.getLastD "") i) :
    find_new_lines current prev_tail = current := by
  have hempty : prev_tail.isEmpty = false := by
    cases prev_tail with
    | nil => exact absurd rfl h0
    | cons a t => rfl
  simp only [find_new_lines, hempty, Bool.false_eq_true, if_false]
  rw [fnlSearch_eq_none current prev_tail _ current.length h]

/-- **C2 (counterexample).** The round-trip claim fails as stated: appending
a line equal to the anchor line makes the backward scan align at the
appended copy, so the appended lines are not returned. -/
theorem c2_counterexample :
    ¬ (find_new_lines (["a"] ++ ["a"]) (tailOf ["a"]) = ["a"]) := by
  decide

/-- **C2 (amended).** If in addition the last line of `C1` does not occur
among the appended lines `L`, `newLines(C1 ++ L, tailOf C1)` returns exactly
`L`; and whenever the remembered tail finds no suffix-aligned match point in
the current capture, the entire current capture is returned. -/
theorem c2_log_differ :
    (∀ C1 L : List String, L ≠ [] → (∀ x ∈ L, C1.getLast? ≠ some x) →
        find_new_lines (C1 ++ L) (tailOf C1) = L) ∧
    (∀ current prev_tail : List String, prev_tail ≠ [] →
        (∀ i, i < current.length →
          ¬ fnlMatchAt current prev_tail (prev_tail.getLastD "") i) →
        find_new_lines current prev_tail = current) :=
  ⟨find_new_lines_roundtrip, find_new_lines_no_match⟩

theorem c2_log_differ_witness :
    find_new_lines (["a", "b"] ++ ["c"]) (tailOf ["a", "b"]) = ["c"] ∧
    find_new_lines ["x"] ["z"] = ["x"] :=
  ⟨c2_log_differ.1 ["a", "b"] ["c"] (by decide) (by decide),
   c2_log_differ.2 ["x"] ["z"] (by decide) (by decide)⟩

theorem dfsFold_nil (deps : String → List String) (fuel : Nat)
    (color : String → Nat) : dfsFold deps fuel [] color = some (.ok color) :=
  rfl

theorem dfsFold_cons (deps : String → List String) (fuel : Nat)
    (dep : String) (rest : List String) (color : String → Nat) :
    dfsFold deps fuel (dep :: rest) color =
      if color dep = 1 then some (.error (cycleMsg dep))
      else if color dep = 0 then
        match dfsVisit deps fuel dep color with
        | none => none
        | some (.error e) => some (.error e)
        | some (.ok c2) => dfsFold deps fuel rest c2
      else dfsFold deps fuel rest color :=
  rfl

theorem dfsVisit_zero (deps : String → List String) (node : String)
    (color : String → Nat) : dfsVisit deps 0 node color = none :=
  rfl

theorem dfsVisit_succ (deps : String → List String) (fuel : Nat)
    (node : String) (color : String → Nat) :
    dfsVisit deps (fuel + 1) node color =
      match dfsFold deps fuel (deps node) (colorSet color node 1) with
      | none => none
      | some (.error e) => some (.error e)
      | some (.ok c2) => some (.ok (colorSet c2 node 2)) :=
  rfl

/-- Graying a white node preserves the black-order invariant. -/
theorem DfsInv.grayNode (deps : String → List String) (color : String → Nat)
    (bl : List String) (node : String) (hinv : DfsInv deps color bl)
    (hw : color node = 0) : DfsInv deps (colorSet color node 1) bl := by
  refine ⟨?_, hinv.nodup, hinv.order, ?_⟩
  · intro x
    by_cases hx : x = node
    · have hcs : colorSet color node 1 x = 1 := by simp [colorSet, hx]
      rw [hcs]
      constructor
      · intro h
        exact absurd h (by decide)
      · intro hmem
        have hb := (hinv.black_iff x).mpr hmem
        rw [hx] at hb
        omega
    · simpa [colorSet, hx] using hinv.black_iff x
  · intro x
    by_cases hx : x = node <;> simp [colorSet, hx]
    exact hinv.le2 x

/-- Blackening a gray node whose dependencies are all black extends the
black order by that node. -/
theorem DfsInv.blackenNode (deps : String → List String) (color : String → Nat)
    (bl : List String) (node : String) (hinv : DfsInv deps color bl)
    (hg : color node = 1) (hdeps : ∀ d ∈ deps node, d ∈ bl) :
    DfsInv deps (colorSet color node 2) (bl ++ [node]) := by
  have hnode : node ∉ bl := fun hmem =>
    absurd ((hinv.black_iff node).mpr hmem) (by omega)
  refine ⟨?_, ?_, ?_, ?_⟩
  · intro x
    by_cases hx : x = node
    · subst hx
      simp [colorSet]
    · rw [List.mem_append]
      simp only [colorSet, if_neg hx, List.mem_singleton]
      rw [hinv.black_iff x]
      constructor
      · exact Or.inl
      · rintro (h | h)
        · exact h
        · exact absurd h hx
  · simp [List.nodup_append, hinv.nodup, hnode]
  · intro k n hk d hd
    by_cases hklen : k < bl.length
    · rw [List.getElem?_append, if_pos hklen] at hk
      rw [List.take_append_of_le_length (by omega)]
      exact hinv.order k n hk d hd
    · have hkeq : k = bl.length := by
        by_contra hne
        rw [List.getElem?_eq_none (by simp; omega)] at hk
        exact Option.noConfusion hk
      subst hkeq
      have hn : n = node := by
        rw [List.getElem?_append, if_neg (by omega)] at hk
        simp at hk
        exact hk.symm
      subst hn
      rw [List.take_append_of_le_length (le_refl _), List.take_length]
      exact hdeps d hd
  · intro x
    by_cases hx : x = node <;> simp [colorSet, hx]
    exact hinv.le2 x

theorem foldSpec_of_visitSpec (deps : String → List String) (fuel : Nat)
    (hv : VisitSpec deps fuel) : FoldSpec deps fuel := by
  intro ds
  induction ds with
  | nil =>
      intro cur color bl hinv _
      constructor
      · intro c2 hc2
        simp only [dfsFold_nil, dfsFold_cons] at hc2
        obtain rfl : color = c2 := by
          cases hc2
          rfl
        exact ⟨[], by simpa using hinv, fun x => Iff.rfl, by simp⟩
      · intro msg hmsg
        simp only [dfsFold_nil, dfsFold_cons] at hmsg
        cases hmsg
  | cons dep rest ih =>
      intro cur color bl hinv hsub
      by_cases hgray : color dep = 1
      · constructor
        · intro c2 hc2
          simp only [dfsFold_cons, if_pos hgray] at hc2
          cases hc2
        · intro msg hmsg hreach
          simp only [dfsFold_cons, if_pos hgray] at hmsg
          obtain rfl : cycleMsg dep = msg := by
            cases hmsg
            rfl
          refine ⟨dep, ?_, rfl⟩
          exact Relation.TransGen.tail' (hreach dep hgray)
            (hsub dep (by simp))
      · by_cases hwhite : color dep = 0
        · have hvd := hv dep color bl hinv hwhite
          constructor
          · intro c2 hc2
            simp only [dfsFold_cons, if_neg hgray, if_pos hwhite] at hc2
            cases hvis : dfsVisit deps fuel dep color with
            | none => rw [hvis] at hc2; cases hc2
            | some res =>
                cases res with
                | error e => rw [hvis] at hc2; cases hc2
                | ok cmid =>
                    rw [hvis] at hc2
                    obtain ⟨ext1, hinv1, hdep1, hgr1⟩ := hvd.1 cmid hvis
                    have hrest := ih cur cmid (bl ++ ext1) hinv1
                      (fun d hd => hsub d (by simp [hd]))
                    obtain ⟨ext2, hinv2, hgr2, hblack2⟩ := hrest.1 c2 hc2
                    refine ⟨ext1 ++ ext2, by rwa [← List.append_assoc], ?_, ?_⟩
                    · intro x
                      rw [hgr2 x, hgr1 x]
                    · intro d hd
                      rcases List.mem_cons.mp hd with rfl | hd'
                      · exact (hinv2.black_iff d).mpr
                          (by simp [List.mem_append, hdep1])
                      · exact hblack2 d hd'
          · intro msg hmsg hreach
            simp only [dfsFold_cons, if_neg hgray, if_pos hwhite] at hmsg
            cases hvis : dfsVisit deps fuel dep color with
            | none => rw [hvis] at hmsg; cases hmsg
            | some res =>
                cases res with
                | error e =>
                    rw [hvis] at hmsg
                    cases hmsg
                    refine hvd.2 _ hvis ?_
                    intro g hg
                    exact Relation.ReflTransGen.tail (hreach g hg)
                      (hsub dep (by simp))
                | ok cmid =>
                    rw [hvis] at hmsg
                    obtain ⟨ext1, hinv1, hdep1, hgr1⟩ := hvd.1 cmid hvis
                    have hrest := ih cur cmid (bl ++ ext1) hinv1
                      (fun d hd => hsub d (by simp [hd]))
                    refine hrest.2 msg hmsg ?_
                    intro g hg
                    exact hreach g ((hgr1 g).mp hg)
        · have hblack : color dep = 2 := by
            have := hinv.le2 dep
            omega
          constructor
          · intro c2 hc2
            simp only [dfsFold_cons, if_neg hgray, if_neg hwhite] at hc2
            have hrest := ih cur color bl hinv
              (fun d hd => hsub d (by simp [hd]))
            obtain ⟨ext, hinv2, hgr, hbl⟩ := hrest.1 c2 hc2
            refine ⟨ext, hinv2, hgr, ?_⟩
            intro d hd
            rcases List.mem_cons.mp hd with rfl | hd'
            · exact (hinv2.black_iff d).mpr
                (by simp [List.mem_append, (hinv.black_iff d).mp hblack])
            · exact hbl d hd'
          · intro msg hmsg hreach
            simp only [dfsFold_cons, if_neg hgray, if_neg hwhite] at hmsg
            have hrest := ih cur color bl hinv
              (fun d hd => hsub d (by simp [hd]))
            exact hrest.2 msg hmsg hreach

theorem visitSpec_all (deps : String → List String) :
    ∀ fuel, VisitSpec deps fuel := by
  intro fuel
  induction fuel with
  | zero =>
      intro node color bl _ _
      constructor
      · intro c2 hc2
        simp only [dfsVisit_zero, dfsVisit_succ] at hc2
        cases hc2
      · intro msg hmsg
        simp only [dfsVisit_zero, dfsVisit_succ] at hmsg
        cases hmsg
  | succ fuel ih =>
      have hf := foldSpec_of_visitSpec deps fuel ih
      intro node color bl hinv hwhite
      have hinv1 := DfsInv.grayNode deps color bl node hinv hwhite
      have hnode1 : colorSet color node 1 node = 1 := by simp [colorSet]
      have hfold := hf (deps node) node (colorSet color node 1) bl hinv1
        (fun d hd => hd)
      constructor
      · intro c2 hc2
        simp only [dfsVisit_zero, dfsVisit_succ] at hc2
        cases hfr : dfsFold deps fuel (deps node) (colorSet color node 1) with
        | none => rw [hfr] at hc2; cases hc2
        | some res =>
            cases res with
            | error e => rw [hfr] at hc2; cases hc2
            | ok cmid =>
                rw [hfr] at hc2
                obtain rfl : colorSet cmid node 2 = c2 := by
                  cases hc2
                  rfl
                obtain ⟨ext, hinv2, hgr, hblacks⟩ := hfold.1 cmid hfr
                have hmidgray : cmid node = 1 := (hgr node).mpr hnode1
                have hfin := DfsInv.blackenNode deps cmid (bl ++ ext) node hinv2
                  hmidgray
                  (fun d hd => (hinv2.black_iff d).mp (hblacks d hd))
                refine ⟨ext ++ [node], by rw [← List.append_assoc]; exact hfin,
                  by simp, ?_⟩
                intro x
                by_cases hx : x = node
                · subst hx
                  simp [colorSet, hwhite]
                · rw [show colorSet cmid node 2 x = cmid x by simp [colorSet, hx]]
                  rw [hgr x]
                  simp [colorSet, hx]
      · intro msg hmsg hreach
        simp only [dfsVisit_zero, dfsVisit_succ] at hmsg
        cases hfr : dfsFold deps fuel (deps node) (colorSet color node 1) with
        | none => rw [hfr] at hmsg; cases hmsg
        | some res =>
            cases res with
            | ok cmid => rw [hfr] at hmsg; cases hmsg
            | error e =>
                rw [hfr] at hmsg
                cases hmsg
                refine hfold.2 _ hfr ?_
                intro g hg
                by_cases hgx : g = node
                · subst hgx
                  exact Relation.ReflTransGen.refl
                · rw [show colorSet color node 1 g = color g by
                    simp [colorSet, hgx]] at hg
                  exact hreach g hg

theorem foldSpec_all (deps : String → List String) (fuel : Nat) :
    FoldSpec deps fuel :=
  foldSpec_of_visitSpec deps fuel (visitSpec_all deps fuel)

theorem dfsRoots_spec (deps : String → List String) (fuel : Nat) :
    ∀ roots color bl,
      DfsInv deps color bl → (∀ g, color g ≠ 1) →
      (∀ c2, dfsRoots deps fuel roots color = some (.ok c2) →
        ∃ ext, DfsInv deps c2 (bl ++ ext) ∧ (∀ g, c2 g ≠ 1) ∧
          ∀ r ∈ roots, c2 r = 2) ∧
      (∀ msg, dfsRoots deps fuel roots color = some (.error msg) →
        ∃ t, Relation.TransGen (edgeRel deps) t t ∧ msg = cycleMsg t) := by
  intro roots
  induction roots with
  | nil =>
      intro color bl hinv hng
      constructor
      · intro c2 hc2
        simp only [dfsRoots] at hc2
        cases hc2
        exact ⟨[], by simpa using hinv, hng, by simp⟩
      · intro msg hmsg
        simp only [dfsRoots] at hmsg
        cases hmsg
  | cons r rest ih =>
      intro color bl hinv hng
      by_cases hw : color r = 0
      · have hvd := visitSpec_all deps fuel r color bl hinv hw
        constructor
        · intro c2 hc2
          simp only [dfsRoots, if_pos hw] at hc2
          cases hvis : dfsVisit deps fuel r color with
          | none => rw [hvis] at hc2; cases hc2
          | some res =>
              cases res with
              | error e => rw [hvis] at hc2; cases hc2
              | ok cmid =>
                  rw [hvis] at hc2
                  obtain ⟨ext1, hinv1, hr1, hgr1⟩ := hvd.1 cmid hvis
                  have hng1 : ∀ g, cmid g ≠ 1 := fun g hg =>
                    hng g ((hgr1 g).mp hg)
                  obtain ⟨ext2, hinv2, hng2, hrest⟩ :=
                    (ih cmid (bl ++ ext1) hinv1 hng1).1 c2 hc2
                  refine ⟨ext1 ++ ext2, by rwa [← List.append_assoc], hng2, ?_⟩
                  intro x hx
                  rcases List.mem_cons.mp hx with rfl | hx'
                  · exact (hinv2.black_iff x).mpr
                      (by simp [List.mem_append, hr1])
                  · exact hrest x hx'
        · intro msg hmsg
          simp only [dfsRoots, if_pos hw] at hmsg
          cases hvis : dfsVisit deps fuel r color with
          | none => rw [hvis] at hmsg; cases hmsg
          | some res =>
              cases res with
              | error e =>
                  rw [hvis] at hmsg
                  cases hmsg
                  exact hvd.2 _ hvis (fun g hg => absurd hg (hng g))
              | ok cmid =>
                  rw [hvis] at hmsg
                  obtain ⟨ext1, hinv1, hr1, hgr1⟩ := hvd.1 cmid hvis
                  have hng1 : ∀ g, cmid g ≠ 1 := fun g hg =>
                    hng g ((hgr1 g).mp hg)
                  exact (ih cmid (bl ++ ext1) hinv1 hng1).2 msg hmsg
      · have hb : color r = 2 := by
          have h1 := hinv.le2 r
          have h2 := hng r
          omega
        constructor
        · intro c2 hc2
          simp only [dfsRoots, if_neg hw] at hc2
          obtain ⟨ext, hinv2, hng2, hrest⟩ := (ih color bl hinv hng).1 c2 hc2
          refine ⟨ext, hinv2, hng2, ?_⟩
          intro x hx
          rcases List.mem_cons.mp hx with rfl | hx'
          · exact (hinv2.black_iff x).mpr
              (by simp [List.mem_append, (hinv.black_iff x).mp hb])
          · exact hrest x hx'
        · intro msg hmsg
          simp only [dfsRoots, if_neg hw] at hmsg
          exact (ih color bl hinv hng).2 msg hmsg

/-! ### From a black order to acyclicity -/
theorem mem_take_exists (l : List String) (k : Nat) (d : String)
    (h : d ∈ l.take k) : ∃ j, j < k ∧ l[j]? = some d := by
  obtain ⟨i, hget⟩ := List.mem_iff_getElem?.mp h
  have hik : i < k := by
    by_contra hc
    rw [List.getElem?_take] at hget
    rw [if_neg hc] at hget
    exact Option.noConfusion hget
  rw [List.getElem?_take, if_pos hik] at hget
  exact ⟨i, hik, hget⟩

theorem getElem?_inj_nodup (l : List String) (hn : l.Nodup) (i j : Nat)
    (a : String) (h1 : l[i]? = some a) (h2 : l[j]? = some a) : i = j := by
  have hi : i < l.length := by
    by_contra hc
    rw [List.getElem?_eq_none (by omega)] at h1
    exact Option.noConfusion h1
  have hj : j < l.length := by
    by_contra hc
    rw [List.getElem?_eq_none (by omega)] at h2
    exact Option.noConfusion h2
  rw [List.getElem?_eq_getElem hi] at h1
  rw [List.getElem?_eq_getElem hj] at h2
  have heq : l[i] = l[j] := by
    rw [Option.some_inj] at h1 h2
    rw [h1, h2]
  exact (@List.Nodup.getElem_inj_iff String l hn i hi j hj).mp heq

theorem order_descend (deps : String → List String) (bl : List String)
    (horder : ∀ k n, bl[k]? = some n → ∀ d ∈ deps n, d ∈ bl.take k) :
    ∀ n m, Relation.TransGen (edgeRel deps) n m →
      ∀ k : Nat, bl[k]? = some n → ∃ j : Nat, j < k ∧ bl[j]? = some m := by
  intro n m htg
  induction htg with
  | single h =>
      intro k hk
      have h' : _ ∈ deps n := h
      exact mem_take_exists bl k _ (horder k n hk _ h')
  | tail _ hstep ih =>
      intro k hk
      obtain ⟨j, hj, hbj⟩ := ih k hk
      have hstep' : _ ∈ deps _ := hstep
      obtain ⟨j2, hj2, hbj2⟩ := mem_take_exists bl j _ (horder j _ hbj _ hstep')
      exact ⟨j2, by omega, hbj2⟩

theorem order_no_cycle (deps : String → List String) (bl : List String)
    (hnd : bl.Nodup)
    (horder : ∀ k n, bl[k]? = some n → ∀ d ∈ deps n, d ∈ bl.take k)
    (t : String) (k : Nat) (hk : bl[k]? = some t) :
    ¬ Relation.TransGen (edgeRel deps) t t := by
  intro htg
  obtain ⟨j, hj, hbj⟩ := order_descend deps bl horder t t htg k hk
  have := getElem?_inj_nodup bl hnd j k t hbj hk
  omega

/-! ### Association-list facts -/
theorem assocLookup_mem {α : Type} (l : List (String × α)) (k : String) (v : α)
    (h : assocLookup l k = some v) : (k, v) ∈ l := by
  induction l with
  | nil => cases h
  | cons p rest ih =>
      obtain ⟨k', v'⟩ := p
      simp only [assocLookup] at h
      by_cases hk : k = k'
      · rw [if_pos hk] at h
        cases h
        simp [hk]
      · rw [if_neg hk] at h
        simp [ih h]

theorem mem_keys_of_lookup (tasks : Tasks) (k : String) (v : TaskConfig)
    (h : assocLookup tasks k = some v) : k ∈ taskKeys tasks :=
  List.mem_map.mpr ⟨(k, v), assocLookup_mem tasks k v h, rfl⟩

theorem lookup_of_mem_nodup (tasks : Tasks) (k : String) (v : TaskConfig)
    (hnd : (taskKeys tasks).Nodup) (h : (k, v) ∈ tasks) :
    assocLookup tasks k = some v := by
  induction tasks with
  | nil => cases h
  | cons p rest ih =>
      obtain ⟨k', v'⟩ := p
      simp only [taskKeys, List.map_cons, List.nodup_cons] at hnd
      rcases List.mem_cons.mp h with heq | hmem
      · cases heq
        simp [assocLookup]
      · have hk : k ≠ k' := by
          intro hkk
          subst hkk
          exact hnd.1 (List.mem_map.mpr ⟨(k, v), hmem, rfl⟩)
        simp only [assocLookup]
        rw [if_neg hk]
        exact ih hnd.2 hmem

theorem depEdge_mem_keys (tasks : Tasks) (x y : String)
    (h : depEdge tasks x y) : x ∈ taskKeys tasks := by
  have h' : y ∈ depsOf tasks x := h
  unfold depsOf at h'
  cases hl : assocLookup tasks x with
  | none =>
      rw [hl] at h'
      exact absurd h' (List.not_mem_nil y)
  | some cfg => exact mem_keys_of_lookup tasks x cfg hl

theorem transGen_first_edge {r : String → String → Prop} {a b : String}
    (h : Relation.TransGen r a b) : ∃ c, r a c := by
  induction h with
  | single h => exact ⟨_, h⟩
  | tail _ _ ih => exact ih

/-! ### Reference and self-dependency pass -/
theorem checkDeps_cases (task_names : List String) (name : String) :
    ∀ ds, (∀ d ∈ ds, d ∈ task_names) →
      checkDeps task_names name ds = .ok () ∨
        (checkDeps task_names name ds = .error (selfDepMsg name) ∧ name ∈ ds) := by
  intro ds
  induction ds with
  | nil => intro _; exact Or.inl rfl
  | cons d rest ih =>
      intro h
      simp only [checkDeps]
      rw [if_neg (not_not_intro (h d (by simp)))]
      by_cases hd : d = name
      · right
        rw [if_pos hd]
        exact ⟨rfl, by simp [hd]⟩
      · rw [if_neg hd]
        rcases ih (fun x hx => h x (by simp [hx])) with hok | ⟨herr, hmem⟩
        · exact Or.inl hok
        · exact Or.inr ⟨herr, by simp [hmem]⟩

theorem checkRefsSelf_cases (task_names : List String) :
    ∀ ts : Tasks, (∀ p ∈ ts, ∀ d ∈ p.2.depends_on, d ∈ task_names) →
      checkRefsSelf task_names ts = .ok () ∨
        ∃ n cfg, (n, cfg) ∈ ts ∧ n ∈ cfg.depends_on ∧
          checkRefsSelf task_names ts = .error (selfDepMsg n) := by
  intro ts
  induction ts with
  | nil => intro _; exact Or.inl rfl
  | cons p rest ih =>
      intro h
      obtain ⟨name, cfg⟩ := p
      simp only [checkRefsSelf]
      rcases checkDeps_cases task_names name cfg.depends_on
          (fun d hd => h (name, cfg) (by simp) d hd) with hok | ⟨herr, hmem⟩
      · rw [hok]
        rcases ih (fun q hq => h q (by simp [hq])) with hok2 | ⟨n, c2, hm2, hd2, he2⟩
        · exact Or.inl hok2
        · exact Or.inr ⟨n, c2, by simp [hm2], hd2, he2⟩
      · right
        refine ⟨name, cfg, by simp, hmem, ?_⟩
        rw [herr]

theorem whiteCount_le (names : List String) (c c' : String → Nat)
    (h : ∀ x, c' x = 0 → c x = 0) :
    whiteCount names c' ≤ whiteCount names c := by
  unfold whiteCount
  rw [← List.countP_eq_length_filter, ← List.countP_eq_length_filter]
  apply List.countP_mono_left
  intro a _ ha
  simp only [beq_iff_eq] at ha ⊢
  exact h a ha

theorem whiteCount_gray_aux (c : String → Nat) (node : String) (hw : c node = 0) :
    ∀ names : List String, names.Nodup → node ∈ names →
      names.countP (fun n => colorSet c node 1 n == 0) + 1
        = names.countP (fun n => c n == 0) := by
  intro names
  induction names with
  | nil => intro _ hmem; cases hmem
  | cons a rest ih =>
      intro hnd hmem
      rw [List.countP_cons, List.countP_cons]
      simp only [List.nodup_cons] at hnd
      rcases List.mem_cons.mp hmem with heq | hmem'
      · subst heq
        have hrest : rest.countP (fun n => colorSet c node 1 n == 0)
            = rest.countP (fun n => c n == 0) := by
          apply List.countP_congr
          intro x hx
          have hxn : x ≠ node := fun he => hnd.1 (he ▸ hx)
          simp [colorSet, hxn]
        rw [hrest]
        have h1 : (colorSet c node 1 node == 0) = false := by simp [colorSet]
        have h2 : (c node == 0) = true := by simp [hw]
        rw [h1, h2]
        simp
      · have hna : a ≠ node := fun he => hnd.1 (he ▸ hmem')
        have h3 : (colorSet c node 1 a == 0) = (c a == 0) := by
          simp [colorSet, hna]
        rw [h3]
        have := ih hnd.2 hmem'
        by_cases hca : (c a == 0) = true
        · rw [hca]
          simp only []
          omega
        · rw [Bool.not_eq_true] at hca
          rw [hca]
          simp only [Bool.false_eq_true, if_false]
          omega

theorem whiteCount_gray (names : List String) (c : String → Nat) (node : String)
    (hnd : names.Nodup) (hmem : node ∈ names) (hw : c node = 0) :
    whiteCount names (colorSet c node 1) + 1 = whiteCount names c := by
  unfold whiteCount
  rw [← List.countP_eq_length_filter, ← List.countP_eq_length_filter]
  exact whiteCount_gray_aux c node hw names hnd hmem

/-- Whites never reappear across a successful visit. -/
theorem visit_white_shrink (deps : String → List String) (fuel : Nat)
    (color cmid : String → Nat) (bl ext : List String)
    (hinv : DfsInv deps color bl) (hinv2 : DfsInv deps cmid (bl ++ ext))
    (hgr : ∀ x, cmid x = 1 ↔ color x = 1) :
    ∀ x, cmid x = 0 → color x = 0 := by
  intro x hx
  have hle := hinv.le2 x
  by_contra hcx
  have h12 : color x = 1 ∨ color x = 2 := by omega
  rcases h12 with h1 | h2
  · have := (hgr x).mpr h1
    omega
  · have hmem : x ∈ bl := (hinv.black_iff x).mp h2
    have : cmid x = 2 := (hinv2.black_iff x).mpr (by simp [hmem])
    omega

theorem foldFuel_of_visitFuel (deps : String → List String)
    (names : List String) (fuel : Nat) (hvf : VisitFuel deps names fuel) :
    ∀ ds color bl, DfsInv deps color bl →
      (∀ n, ∀ d ∈ deps n, d ∈ names) → names.Nodup →
      (∀ d ∈ ds, d ∈ names) → whiteCount names color < fuel →
      dfsFold deps fuel ds color ≠ none := by
  intro ds
  induction ds with
  | nil =>
      intro color bl _ _ _ _ _
      simp [dfsFold_nil]
  | cons dep rest ih =>
      intro color bl hinv hclosed hnd hds hwc
      simp only [dfsFold_nil, dfsFold_cons]
      by_cases hgray : color dep = 1
      · rw [if_pos hgray]
        simp
      · rw [if_neg hgray]
        by_cases hwhite : color dep = 0
        · rw [if_pos hwhite]
          cases hvis : dfsVisit deps fuel dep color with
          | none =>
              exact absurd hvis (hvf dep color bl hinv hclosed hnd
                (hds dep (by simp)) hwhite hwc)
          | some res =>
              cases res with
              | error e => simp
              | ok cmid =>
                  obtain ⟨ext, hinv2, -, hgr⟩ :=
                    (visitSpec_all deps fuel dep color bl hinv hwhite).1 cmid hvis
                  have hshr := visit_white_shrink deps fuel color cmid bl ext
                    hinv hinv2 hgr
                  have hwc2 : whiteCount names cmid ≤ whiteCount names color :=
                    whiteCount_le names color cmid hshr
                  exact ih cmid (bl ++ ext) hinv2 hclosed hnd
                    (fun d hd => hds d (by simp [hd])) (by omega)
        · rw [if_neg hwhite]
          exact ih color bl hinv hclosed hnd
            (fun d hd => hds d (by simp [hd])) hwc

theorem visitFuel_all (deps : String → List String) (names : List String) :
    ∀ fuel, VisitFuel deps names fuel := by
  intro fuel
  induction fuel with
  | zero =>
      intro node color bl _ _ _ _ _ hwc
      omega
  | succ fuel ih =>
      intro node color bl hinv hclosed hnd hmem hw hwc
      simp only [dfsVisit_succ]
      have hinv1 := DfsInv.grayNode deps color bl node hinv hw
      have hwc1 := whiteCount_gray names color node hnd hmem hw
      have hfold := foldFuel_of_visitFuel deps names fuel ih (deps node)
        (colorSet color node 1) bl hinv1 hclosed hnd
        (fun d hd => hclosed node d hd) (by omega)
      cases hfr : dfsFold deps fuel (deps node) (colorSet color node 1) with
      | none => exact absurd hfr hfold
      | some res => cases res <;> simp

theorem dfsRoots_ne_none (deps : String → List String) (names : List String)
    (fuel : Nat) :
    ∀ roots color bl, DfsInv deps color bl →
      (∀ n, ∀ d ∈ deps n, d ∈ names) → names.Nodup →
      (∀ r ∈ roots, r ∈ names) → (∀ g, color g ≠ 1) →
      whiteCount names color < fuel →
      dfsRoots deps fuel roots color ≠ none := by
  intro roots
  induction roots with
  | nil =>
      intro color bl _ _ _ _ _ _
      simp [dfsRoots]
  | cons r rest ih =>
      intro color bl hinv hclosed hnd hroots hng hwc
      simp only [dfsRoots]
      by_cases hw : color r = 0
      · rw [if_pos hw]
        cases hvis : dfsVisit deps fuel r color with
        | none =>
            exact absurd hvis (visitFuel_all deps names fuel r color bl hinv
              hclosed hnd (hroots r (by simp)) hw hwc)
        | some res =>
            cases res with
            | error e => simp
            | ok cmid =>
                obtain ⟨ext, hinv2, -, hgr⟩ :=
                  (visitSpec_all deps fuel r color bl hinv hw).1 cmid hvis
                have hshr := visit_white_shrink deps fuel color cmid bl ext
                  hinv hinv2 hgr
                have hwc2 : whiteCount names cmid ≤ whiteCount names color :=
                  whiteCount_le names color cmid hshr
                have hng2 : ∀ g, cmid g ≠ 1 := fun g hg => hng g ((hgr g).mp hg)
                exact ih cmid (bl ++ ext) hinv2 hclosed hnd
                  (fun x hx => hroots x (by simp [hx])) hng2 (by omega)
      · rw [if_neg hw]
        exact ih color bl hinv hclosed hnd
          (fun x hx => hroots x (by simp [hx])) hng hwc

theorem dfsInv_init (deps : String → List String) :
    DfsInv deps (fun _ => 0) [] := by
  refine ⟨by simp, List.nodup_nil, ?_, by simp⟩
  intro k n hk
  simp at hk

theorem depsOf_closed (tasks : Tasks)
    (hvalid : ∀ p ∈ tasks, ∀ d ∈ p.2.depends_on, d ∈ taskKeys tasks) :
    ∀ n, ∀ d ∈ depsOf tasks n, d ∈ taskKeys tasks := by
  intro n d hd
  unfold depsOf at hd
  cases hl : assocLookup tasks n with
  | none =>
      rw [hl] at hd
      exact absurd hd (List.not_mem_nil d)
  | some cfg =>
      rw [hl] at hd
      exact hvalid (n, cfg) (assocLookup_mem tasks n cfg hl) d hd

theorem whiteCount_init (names : List String) :
    whiteCount names (fun _ => 0) = names.length := by
  unfold whiteCount
  rw [List.filter_eq_self.mpr]
  intro a _
  simp

theorem validate_ne_none (tasks : Tasks) (roots : List String)
    (hnd : (taskKeys tasks).Nodup)
    (hvalid : ∀ p ∈ tasks, ∀ d ∈ p.2.depends_on, d ∈ taskKeys tasks)
    (hroots : ∀ r ∈ roots, r ∈ taskKeys tasks) :
    validate_depends_on tasks roots ≠ none := by
  unfold validate_depends_on
  cases hc : checkRefsSelf (taskKeys tasks) tasks with
  | error e => simp
  | ok u =>
      have hne := dfsRoots_ne_none (depsOf tasks) (taskKeys tasks)
        ((taskKeys tasks).length + 1) roots (fun _ => 0) []
        (dfsInv_init (depsOf tasks)) (depsOf_closed tasks hvalid) hnd hroots
        (by intro g; simp) (by rw [whiteCount_init]; omega)
      cases hr : dfsRoots (depsOf tasks) ((taskKeys tasks).length + 1) roots
          (fun _ => 0) with
      | none => exact absurd hr hne
      | some res => cases res <;> simp

/-- Successful validation yields a duplicate-free blackening order covering
all roots in which every task's dependencies appear strictly earlier. -/
theorem validate_ok_blackorder (tasks : Tasks) (roots : List String)
    (h : validate_depends_on tasks roots = some (.ok ())) :
    ∃ bl : List String, bl.Nodup ∧ (∀ r ∈ roots, r ∈ bl) ∧
      (∀ k n, bl[k]? = some n → ∀ d ∈ depsOf tasks n, d ∈ bl.take k) := by
  unfold validate_depends_on at h
  cases hc : checkRefsSelf (taskKeys tasks) tasks with
  | error e => rw [hc] at h; cases h
  | ok u =>
      rw [hc] at h
      cases hr : dfsRoots (depsOf tasks) ((taskKeys tasks).length + 1) roots
          (fun _ => 0) with
      | none => rw [hr] at h; cases h
      | some res =>
          cases res with
          | error e => rw [hr] at h; cases h
          | ok cF =>
              obtain ⟨ext, hinvF, -, hroots⟩ :=
                (dfsRoots_spec (depsOf tasks) ((taskKeys tasks).length + 1)
                  roots (fun _ => 0) [] (dfsInv_init (depsOf tasks))
                  (by intro g; simp)).1 cF hr
              exact ⟨[] ++ ext, hinvF.nodup,
                fun r hrr => (hinvF.black_iff r).mp (hroots r hrr),
                hinvF.order⟩

/-! ## Claim C4 — cycle rejection at graph construction -/
/-- **C4.** For every task collection whose `depends_on` references are
well-formed but whose edges contain a self-loop or a cycle of any length,
`TaskmuxConfig` validation fails — for every possible iteration order of the
DFS roots — with an error naming a task that lies on a cycle (either the
self-dependency error or the DFS cycle error); in particular no validated
configuration object is produced. -/
theorem c4_cycle_rejection (tasks : Tasks) (roots : List String)
    (hnd : (taskKeys tasks).Nodup)
    (hroots1 : ∀ r ∈ roots, r ∈ taskKeys tasks)
    (hroots2 : ∀ k ∈ taskKeys tasks, k ∈ roots)
    (hvalid : ∀ p ∈ tasks, ∀ d ∈ p.2.depends_on, d ∈ taskKeys tasks)
    (hcyc : ∃ n, Relation.TransGen (depEdge tasks) n n) :
    ∃ t, Relation.TransGen (depEdge tasks) t t ∧
      (validate_depends_on tasks roots = some (.error (selfDepMsg t)) ∨
       validate_depends_on tasks roots = some (.error (cycleMsg t))) := by
  rcases checkRefsSelf_cases (taskKeys tasks) tasks hvalid with
    hok | ⟨n, cfg, hmemn, hdep, herr⟩
  · cases hdfs : dfsRoots (depsOf tasks) ((taskKeys tasks).length + 1) roots
        (fun _ => 0) with
    | none =>
        have hvalnone : validate_depends_on tasks roots = none := by
          unfold validate_depends_on
          rw [hok]
          simp only []
          rw [hdfs]
        exact absurd hvalnone
          (validate_ne_none tasks roots hnd hvalid hroots1)
    | some res2 =>
        cases res2 with
        | ok c2 =>
            have hval : validate_depends_on tasks roots = some (.ok ()) := by
              unfold validate_depends_on
              rw [hok]
              simp only []
              rw [hdfs]
            obtain ⟨m, hm⟩ := hcyc
            obtain ⟨c, hc⟩ := transGen_first_edge hm
            have hmk : m ∈ taskKeys tasks := depEdge_mem_keys tasks m c hc
            obtain ⟨bl, hblnd, hcov, horder⟩ :=
              validate_ok_blackorder tasks roots hval
            have hmbl : m ∈ bl := hcov m (hroots2 m hmk)
            obtain ⟨k, hk⟩ := List.mem_iff_getElem?.mp hmbl
            exact absurd hm
              (order_no_cycle (depsOf tasks) bl hblnd horder m k hk)
        | error e2 =>
            have hval : validate_depends_on tasks roots
                = some (.error e2) := by
              unfold validate_depends_on
              rw [hok]
              simp only []
              rw [hdfs]
            obtain ⟨t, htc, hmsg⟩ :=
              (dfsRoots_spec (depsOf tasks) ((taskKeys tasks).length + 1)
                roots (fun _ => 0) [] (dfsInv_init (depsOf tasks))
                (by intro g; simp)).2 e2 hdfs
            rw [hmsg] at hval
            exact ⟨t, htc, Or.inr hval⟩
  · have hloop : depEdge tasks n n := by
      show n ∈ depsOf tasks n
      unfold depsOf
      rw [lookup_of_mem_nodup tasks n cfg hnd hmemn]
      exact hdep
    have hval : validate_depends_on tasks roots
        = some (.error (selfDepMsg n)) := by
      unfold validate_depends_on
      rw [herr]
    exact ⟨n, Relation.TransGen.single hloop, Or.inl hval⟩

theorem c4_cycle_rejection_witness :
    ∃ t, Relation.TransGen (depEdge tasksC4) t t ∧
      (validate_depends_on tasksC4 ["a", "b"]
          = some (Except.error (selfDepMsg t)) ∨
       validate_depends_on tasksC4 ["a", "b"]
          = some (Except.error (cycleMsg t))) :=
  c4_cycle_rejection tasksC4 ["a", "b"] (by decide) (by decide) (by decide)
    (by decide)
    ⟨"a", Relation.TransGen.head
        (show "b" ∈ depsOf tasksC4 "a" by decide)
        (Relation.TransGen.single
          (show "a" ∈ depsOf tasksC4 "b" by decide))⟩

/-! ### Kahn loop invariants -/
theorem processDeps_spec :
    ∀ (ds : List String) (indeg : String → Int) (queue : List String),
      (∀ x, (processDeps ds indeg queue).1 x
          = indeg x - ((ds.count x : Nat) : Int)) ∧
      ∃ app, (processDeps ds indeg queue).2 = queue ++ app ∧ app.Nodup ∧
        (∀ x, x ∈ app ↔ 1 ≤ indeg x ∧ indeg x ≤ ((ds.count x : Nat) : Int)) ∧
        (∀ x ∈ app, x ∈ ds) := by
  intro ds
  induction ds with
  | nil =>
      intro indeg queue
      constructor
      · intro x
        simp [processDeps]
      · refine ⟨[], by simp [processDeps], List.nodup_nil, ?_, by simp⟩
        intro x
        simp
        intro h
        omega
  | cons d rest ih =>
      intro indeg queue
      have hcnt_d : (((d :: rest).count d : Nat) : Int)
          = ((rest.count d : Nat) : Int) + 1 := by
        rw [List.count_cons]
        simp
      have hcnt_ne : ∀ x, x ≠ d → (((d :: rest).count x : Nat) : Int)
          = ((rest.count x : Nat) : Int) := by
        intro x hx
        rw [List.count_cons]
        have : (d == x) = false := by simp [Ne.symm hx]
        simp [this]
      set indeg' := fun x => if x = d then indeg d - 1 else indeg x with hindeg'
      have hupd_d : indeg' d = indeg d - 1 := by simp [hindeg']
      have hupd_ne : ∀ x, x ≠ d → indeg' x = indeg x := by
        intro x hx
        simp [hindeg', hx]
      by_cases hv : indeg d - 1 = 0
      · have heq : processDeps (d :: rest) indeg queue
            = processDeps rest indeg' (queue ++ [d]) := by
          simp only [processDeps]
          rw [if_pos hv]
        obtain ⟨hdeg, app, happ, hnd, hiff, hsub⟩ := ih indeg' (queue ++ [d])
        have hdnotapp : d ∉ app := by
          intro hmem
          have h := (hiff d).mp hmem
          rw [hupd_d] at h
          omega
        constructor
        · intro x
          rw [heq, hdeg x]
          by_cases hx : x = d
          · rw [hx, hupd_d, hcnt_d]
            omega
          · rw [hupd_ne x hx, hcnt_ne x hx]
        · refine ⟨d :: app, ?_, ?_, ?_, ?_⟩
          · rw [heq, happ]
            simp
          · simp [hnd, hdnotapp]
          · intro x
            by_cases hx : x = d
            · constructor
              · intro _
                rw [hx, hcnt_d]
                omega
              · intro _
                exact List.mem_cons.mpr (Or.inl hx)
            · constructor
              · intro hmem
                have hmem' : x ∈ app := by
                  rcases List.mem_cons.mp hmem with h | h
                  · exact absurd h hx
                  · exact h
                have h := (hiff x).mp hmem'
                rw [hupd_ne x hx] at h
                rw [hcnt_ne x hx]
                exact h
              · intro h
                rw [hcnt_ne x hx] at h
                refine List.mem_cons.mpr (Or.inr ?_)
                rw [hiff x, hupd_ne x hx]
                exact h
          · intro x hx
            rcases List.mem_cons.mp hx with h | h
            · simp [h]
            · simp [hsub x h]
      · have heq : processDeps (d :: rest) indeg queue
            = processDeps rest indeg' queue := by
          simp only [processDeps]
          rw [if_neg hv]
        obtain ⟨hdeg, app, happ, hnd, hiff, hsub⟩ := ih indeg' queue
        constructor
        · intro x
          rw [heq, hdeg x]
          by_cases hx : x = d
          · rw [hx, hupd_d, hcnt_d]
            omega
          · rw [hupd_ne x hx, hcnt_ne x hx]
        · refine ⟨app, by rw [heq, happ], hnd, ?_, ?_⟩
          · intro x
            rw [hiff x]
            by_cases hx : x = d
            · rw [hx, hupd_d, hcnt_d]
              constructor
              · rintro ⟨h1, h2⟩
                exact ⟨by omega, by omega⟩
              · rintro ⟨h1, h2⟩
                exact ⟨by omega, by omega⟩
            · rw [hupd_ne x hx, hcnt_ne x hx]
          · intro x hx
            simp [hsub x hx]

theorem filterMap_marker_eq_replicate (node n : String) :
    ∀ l : List String,
      l.filterMap (fun dep => if dep = node then some n else none)
        = List.replicate (l.count node) n := by
  intro l
  induction l with
  | nil => simp
  | cons a rest ih =>
      by_cases ha : a = node
      · subst ha
        simp [List.filterMap_cons, ih, List.count_cons, List.replicate_succ]
      · simp [List.filterMap_cons, ha, ih, List.count_cons, Ne.symm ha]

theorem count_dependents (tasks : Tasks) (node x : String) :
    ∀ names : List String, names.Nodup →
      (dependentsOf tasks names node).count x
        = if x ∈ names then (depsOf tasks x).count node else 0 := by
  intro names
  induction names with
  | nil =>
      intro _
      simp [dependentsOf]
  | cons a rest ih =>
      intro hnd
      rw [List.nodup_cons] at hnd
      have hstep : dependentsOf tasks (a :: rest) node
          = (depsOf tasks a).filterMap
              (fun dep => if dep = node then some a else none) ++
            dependentsOf tasks rest node := by
        simp [dependentsOf]
      rw [hstep, List.count_append,
        filterMap_marker_eq_replicate node a (depsOf tasks a),
        List.count_replicate, ih hnd.2]
      by_cases hx : x = a
      · have h2 : a ∉ rest := hnd.1
        simp [hx, h2]
      · have h1 : (a == x) = false := by
          simp [Ne.symm hx]
        simp only [h1, Bool.false_eq_true, if_false, Nat.zero_add]
        by_cases hr : x ∈ rest <;> simp [hr, hx]

theorem dependents_subset (tasks : Tasks) (names : List String) (node : String) :
    ∀ x ∈ dependentsOf tasks names node, x ∈ names := by
  intro x hx
  unfold dependentsOf at hx
  rw [List.mem_flatMap] at hx
  obtain ⟨n, hn, hxn⟩ := hx
  rw [filterMap_marker_eq_replicate] at hxn
  rw [List.eq_of_mem_replicate hxn]
  exact hn

theorem count_filter_of_mem (names : List String) (node : String)
    (hnode : node ∈ names) :
    ∀ l : List String,
      (l.filter (fun d => names.contains d)).count node = l.count node := by
  intro l
  induction l with
  | nil => simp
  | cons a rest ih =>
      rw [List.filter_cons]
      by_cases ha : names.contains a = true
      · rw [if_pos ha, List.count_cons, List.count_cons, ih]
      · rw [if_neg ha, List.count_cons, ih]
        have hne : (a == node) = false := by
          have : a ≠ node := by
            intro h
            rw [h] at ha
            exact ha (List.elem_iff.mpr hnode)
          simp [this]
        simp [hne]

theorem kahnInv_init (tasks : Tasks) (names : List String) (hnd : names.Nodup) :
    KahnInv tasks names
      (names.filter (fun n => in_degree0 tasks names n == 0))
      (in_degree0 tasks names) [] := by
  refine ⟨?_, ?_, ?_, ?_, ?_⟩
  · simpa using hnd.filter _
  · intro x hx
    simp only [List.nil_append, List.mem_filter] at hx
    exact hx.1
  · intro n _
    unfold in_degree0
    congr 2
    rw [List.filter_eq_self.mpr]
    intro a _
    simp
  · intro n hn
    simp only [List.nil_append, List.mem_filter]
    constructor
    · rintro ⟨-, hdeg⟩
      refine ⟨by simp, ?_⟩
      intro d hd
      exfalso
      unfold in_degree0 at hdeg
      simp only [beq_iff_eq] at hdeg
      have hlen : (subsetDeps tasks names n).length = 0 := by
        exact_mod_cast hdeg
      rw [List.length_eq_zero] at hlen
      rw [hlen] at hd
      exact absurd hd (List.not_mem_nil d)
    · rintro ⟨-, hall⟩
      refine ⟨hn, ?_⟩
      have hnil : subsetDeps tasks names n = [] := by
        rw [List.eq_nil_iff_forall_not_mem]
        intro d hd
        exact absurd (hall d hd) (List.not_mem_nil d)
      unfold in_degree0
      rw [hnil]
      simp
  · intro k m hk
    simp at hk

theorem filter_append_node_len (result : List String) (node : String)
    (hnode : node ∉ result) :
    ∀ l : List String,
      (((l.filter (fun d => !(result ++ [node]).contains d)).length : Nat) : Int)
        = (((l.filter (fun d => !result.contains d)).length : Nat) : Int)
          - ((l.count node : Nat) : Int) := by
  intro l
  induction l with
  | nil => simp
  | cons a rest ih =>
      rw [List.filter_cons, List.filter_cons, List.count_cons]
      by_cases ha : a = node
      · subst ha
        have h1 : (!(result ++ [a]).contains a) = false := by simp
        have h2 : (!result.contains a) = true := by
          simp [List.elem_iff]
          exact hnode
        rw [h1, h2]
        simp only [Bool.false_eq_true, if_false, if_true, List.length_cons,
          beq_self_eq_true]
        push_cast
        push_cast at ih
        omega
      · have h1 : ((result ++ [node]).contains a) = (result.contains a) := by
          by_cases hc : a ∈ result
          · have hl : (result ++ [node]).contains a = true := by
              simp [List.elem_iff, hc]
            have hr : result.contains a = true := by
              simp [List.elem_iff, hc]
            rw [hl, hr]
          · have hl : (result ++ [node]).contains a = false := by
              simp [List.elem_iff, hc, ha]
            have hr : result.contains a = false := by
              simp [List.elem_iff, hc]
            rw [hl, hr]
        rw [h1]
        have h2 : (a == node) = false := by simp [ha]
        rw [h2]
        by_cases hc : (!result.contains a) = true
        · rw [hc]
          simp only [if_true, List.length_cons, Bool.false_eq_true, if_false]
          push_cast
          push_cast at ih
          omega
        · rw [Bool.not_eq_true] at hc
          rw [hc]
          simp only [Bool.false_eq_true, if_false]
          push_cast
          push_cast at ih
          omega

theorem count_filter_pred_true (p : String → Bool) (node : String)
    (hp : p node = true) :
    ∀ l : List String, (l.filter p).count node = l.count node := by
  intro l
  induction l with
  | nil => simp
  | cons a rest ih =>
      rw [List.filter_cons]
      by_cases ha : p a = true
      · rw [if_pos ha, List.count_cons, List.count_cons, ih]
      · rw [if_neg ha, List.count_cons, ih]
        have hne : (a == node) = false := by
          have han : a ≠ node := by
            intro h
            rw [h] at ha
            exact ha hp
          simp [han]
        simp [hne]

theorem kahnInv_step (tasks : Tasks) (names : List String) (hnd : names.Nodup)
    (node : String) (rest : List String) (indeg : String → Int)
    (result : List String)
    (hinv : KahnInv tasks names (node :: rest) indeg result) :
    KahnInv tasks names
      (processDeps (dependentsOf tasks names node) indeg rest).2
      (processDeps (dependentsOf tasks names node) indeg rest).1
      (result ++ [node]) := by
  obtain ⟨hdeg, app, happ, happnd, hiff, hsubapp⟩ :=
    processDeps_spec (dependentsOf tasks names node) indeg rest
  have hna := List.nodup_append.mp hinv.nodup
  have hres_nodup := hna.1
  have hq_nodup := hna.2.1
  have hdisj := hna.2.2
  have hnode_names : node ∈ names := hinv.subset node (by simp)
  have hnode_nres : node ∉ result := fun hm => hdisj hm (by simp)
  have hnode_nrest : node ∉ rest := (List.nodup_cons.mp hq_nodup).1
  have hrest_nodup := (List.nodup_cons.mp hq_nodup).2
  have hnode_deps : ∀ d ∈ subsetDeps tasks names node, d ∈ result :=
    ((hinv.queue_iff node hnode_names).mp (by simp)).2
  have hzero_of_deps : ∀ x ∈ names,
      (∀ d ∈ subsetDeps tasks names x, d ∈ result) → indeg x = 0 := by
    intro x hx hdeps
    rw [hinv.indeg_eq x hx]
    have hfil : (subsetDeps tasks names x).filter
        (fun d => !result.contains d) = [] := by
      rw [List.filter_eq_nil_iff]
      intro d hd
      simp [List.elem_iff, hdeps d hd]
    rw [hfil]
    simp
  have hresult_zero : ∀ x ∈ result, indeg x = 0 := by
    intro x hx
    obtain ⟨k, hk⟩ := List.mem_iff_getElem?.mp hx
    exact hzero_of_deps x (hinv.subset x (by simp [hx]))
      (fun d hd => List.take_subset k result (hinv.order k x hk d hd))
  have hqueue_zero : ∀ x ∈ node :: rest, indeg x = 0 := by
    intro x hx
    have hxn : x ∈ names := hinv.subset x (by simp [hx])
    exact hzero_of_deps x hxn ((hinv.queue_iff x hxn).mp hx).2
  have happ_names : ∀ x ∈ app, x ∈ names := fun x hx =>
    dependents_subset tasks names node x (hsubapp x hx)
  have happ_pos : ∀ x ∈ app, 1 ≤ indeg x := fun x hx => ((hiff x).mp hx).1
  have happ_nres : ∀ x ∈ app, x ∉ result := by
    intro x hx hmem
    have h0 := hresult_zero x hmem
    have h1 := happ_pos x hx
    omega
  have happ_nq : ∀ x ∈ app, x ∉ node :: rest := by
    intro x hx hmem
    have h0 := hqueue_zero x hmem
    have h1 := happ_pos x hx
    omega
  have hcnt : ∀ x ∈ names, (((dependentsOf tasks names node).count x : Nat) : Int)
      = (((subsetDeps tasks names x).count node : Nat) : Int) := by
    intro x hx
    rw [count_dependents tasks node x names hnd, if_pos hx]
    norm_cast
    exact (count_filter_pred_true (fun d => names.contains d) node
      (by simp [List.elem_iff, hnode_names]) (depsOf tasks x)).symm
  have hnodepass : (fun d => !result.contains d) node = true := by
    simp [List.elem_iff]
    exact hnode_nres
  rw [happ]
  refine ⟨?_, ?_, ?_, ?_, ?_⟩
  · -- nodup
    rw [List.nodup_append]
    refine ⟨?_, ?_, ?_⟩
    · rw [List.nodup_append]
      refine ⟨hres_nodup, by simp, ?_⟩
      intro x hx
      simp only [List.mem_singleton]
      intro hxe
      rw [hxe] at hx
      exact hnode_nres hx
    · rw [List.nodup_append]
      refine ⟨hrest_nodup, happnd, ?_⟩
      intro x hx hxa
      exact happ_nq x hxa (by simp [hx])
    · intro x hx hx2
      rcases List.mem_append.mp hx with hxr | hxn
      · rcases List.mem_append.mp hx2 with hx3 | hx4
        · exact hdisj hxr (by simp [hx3])
        · exact happ_nres x hx4 hxr
      · rw [List.mem_singleton] at hxn
        rcases List.mem_append.mp hx2 with hx3 | hx4
        · rw [hxn] at hx3
          exact hnode_nrest hx3
        · exact happ_nq x hx4 (by simp [hxn])
  · -- subset
    intro x hx
    rcases List.mem_append.mp hx with hx1 | hx2
    · rcases List.mem_append.mp hx1 with hx3 | hx4
      · exact hinv.subset x (by simp [hx3])
      · rw [List.mem_singleton] at hx4
        rw [hx4]
        exact hnode_names
    · rcases List.mem_append.mp hx2 with hx3 | hx4
      · exact hinv.subset x (by simp [hx3])
      · exact happ_names x hx4
  · -- indeg_eq
    intro n hn
    rw [hdeg n, hinv.indeg_eq n hn, hcnt n hn,
      filter_append_node_len result node hnode_nres
        (subsetDeps tasks names n)]
  · -- queue_iff
    intro n hn
    constructor
    · intro hmem
      rcases List.mem_append.mp hmem with hr | ha
      · obtain ⟨hnres, hdeps⟩ := (hinv.queue_iff n hn).mp (by simp [hr])
        have hne : n ≠ node := by
          intro he
          rw [he] at hr
          exact hnode_nrest hr
        constructor
        · intro hm
          rcases List.mem_append.mp hm with h | h
          · exact hnres h
          · rw [List.mem_singleton] at h
            exact hne h
        · intro d hd
          exact List.mem_append.mpr (Or.inl (hdeps d hd))
      · have hpos := happ_pos n ha
        have hub := ((hiff n).mp ha).2
        rw [hcnt n hn] at hub
        have hnres := happ_nres n ha
        have hnq := happ_nq n ha
        constructor
        · intro hm
          rcases List.mem_append.mp hm with h | h
          · exact hnres h
          · rw [List.mem_singleton] at h
            exact hnq (by simp [h])
        · -- every unprocessed in-subset dependency of n is node
          intro d hd
          by_cases hdr : d ∈ result
          · exact List.mem_append.mpr (Or.inl hdr)
          · have hdF : d ∈ (subsetDeps tasks names n).filter
                (fun x => !result.contains x) := by
              rw [List.mem_filter]
              refine ⟨hd, ?_⟩
              simp [List.elem_iff]
              exact hdr
            have hFlen := hinv.indeg_eq n hn
            have hcF : ((subsetDeps tasks names n).filter
                  (fun x => !result.contains x)).count node
                = (subsetDeps tasks names n).count node :=
              count_filter_pred_true _ node hnodepass _
            have hlen_le : ((subsetDeps tasks names n).filter
                  (fun x => !result.contains x)).length
                ≤ ((subsetDeps tasks names n).filter
                  (fun x => !result.contains x)).count node := by
              have h1 : (((subsetDeps tasks names n).filter
                    (fun x => !result.contains x)).length : Int)
                  ≤ ((subsetDeps tasks names n).count node : Int) := by
                rw [← hFlen]
                exact hub
              rw [hcF]
              exact_mod_cast h1
            have hall : ∀ b ∈ (subsetDeps tasks names n).filter
                (fun x => !result.contains x), node = b := by
              rw [← List.count_eq_length]
              have h2 := List.count_le_length node
                ((subsetDeps tasks names n).filter
                  (fun x => !result.contains x))
              omega
            have := hall d hdF
            rw [← this]
            exact List.mem_append.mpr (Or.inr (by simp))
    · rintro ⟨hnmem, hdeps⟩
      have hnres : n ∉ result := fun h =>
        hnmem (List.mem_append.mpr (Or.inl h))
      have hne : n ≠ node := fun h =>
        hnmem (List.mem_append.mpr (Or.inr (by simp [h])))
      by_cases hall : ∀ d ∈ subsetDeps tasks names n, d ∈ result
      · have hq : n ∈ node :: rest :=
          (hinv.queue_iff n hn).mpr ⟨hnres, hall⟩
        rcases List.mem_cons.mp hq with h | h
        · exact absurd h hne
        · exact List.mem_append.mpr (Or.inl h)
      · push_neg at hall
        obtain ⟨d0, hd0, hd0r⟩ := hall
        have hd0n : d0 = node := by
          rcases List.mem_append.mp (hdeps d0 hd0) with h | h
          · exact absurd h hd0r
          · rwa [List.mem_singleton] at h
        refine List.mem_append.mpr (Or.inr ((hiff n).mpr ⟨?_, ?_⟩))
        · -- 1 ≤ indeg n : the filter is non-empty
          rw [hinv.indeg_eq n hn]
          have hd0F : d0 ∈ (subsetDeps tasks names n).filter
              (fun x => !result.contains x) := by
            rw [List.mem_filter]
            refine ⟨hd0, ?_⟩
            simp [List.elem_iff]
            exact hd0r
          have hpos : 0 < ((subsetDeps tasks names n).filter
              (fun x => !result.contains x)).length :=
            List.length_pos.mpr (List.ne_nil_of_mem hd0F)
          omega
        · -- indeg n ≤ count of node among n's in-subset deps
          rw [hinv.indeg_eq n hn, hcnt n hn]
          have hallF : ∀ b ∈ (subsetDeps tasks names n).filter
              (fun x => !result.contains x), node = b := by
            intro b hb
            rw [List.mem_filter] at hb
            have hbr : b ∉ result := by
              have := hb.2
              simp [List.elem_iff] at this
              exact this
            rcases List.mem_append.mp (hdeps b hb.1) with h | h
            · exact absurd h hbr
            · rw [List.mem_singleton] at h
              rw [h]
          have heq := List.count_eq_length.mpr hallF
          have hsubl : ((subsetDeps tasks names n).filter
                (fun x => !result.contains x)).Sublist
              (subsetDeps tasks names n) := List.filter_sublist _
          have hle := hsubl.count_le node
          have : ((subsetDeps tasks names n).filter
                (fun x => !result.contains x)).length
              ≤ (subsetDeps tasks names n).count node := by
            omega
          exact_mod_cast this
  · -- order
    intro k m hk d hd
    by_cases hklen : k < result.length
    · rw [List.getElem?_append, if_pos hklen] at hk
      rw [List.take_append_of_le_length (by omega)]
      exact hinv.order k m hk d hd
    · have hkeq : k = result.length := by
        by_contra hne
        rw [List.getElem?_eq_none (by simp; omega)] at hk
        exact Option.noConfusion hk
      subst hkeq
      have hm : m = node := by
        rw [List.getElem?_append, if_neg (by omega)] at hk
        simp at hk
        exact hk.symm
      rw [List.take_append_of_le_length (le_refl _), List.take_length]
      rw [hm] at hd
      exact hnode_deps d hd

theorem mem_subsetDeps (tasks : Tasks) (names : List String) (n d : String) :
    d ∈ subsetDeps tasks names n ↔ d ∈ depsOf tasks n ∧ d ∈ names := by
  unfold subsetDeps
  rw [List.mem_filter]
  simp [List.elem_iff]

theorem kahnLoop_run (tasks : Tasks) (names : List String) (hnd : names.Nodup) :
    ∀ fuel queue indeg result,
      KahnInv tasks names queue indeg result →
      names.length - result.length < fuel →
      ∃ res indegF,
        kahnLoop (dependentsOf tasks names) fuel queue indeg result
          = some res ∧ KahnInv tasks names [] indegF res := by
  intro fuel
  induction fuel with
  | zero =>
      intro queue indeg result _ hfuel
      omega
  | succ fuel ih =>
      intro queue indeg result hinv hfuel
      cases queue with
      | nil => exact ⟨result, indeg, rfl, hinv⟩
      | cons node rest =>
          have hstep := kahnInv_step tasks names hnd node rest indeg result hinv
          have hlen : (result ++ node :: rest).length ≤ names.length :=
            (List.subperm_of_subset hinv.nodup
              (fun x hx => hinv.subset x hx)).length_le
          have hfuel2 : names.length - (result ++ [node]).length < fuel := by
            simp only [List.length_append, List.length_cons] at hlen ⊢
            simp
            omega
          obtain ⟨res, indegF, hrun, hinvF⟩ := ih _ _ _ hstep hfuel2
          refine ⟨res, indegF, ?_, hinvF⟩
          simp only [kahnLoop]
          exact hrun

theorem toposort_complete (tasks : Tasks) (names : List String)
    (hnd : names.Nodup)
    (hwf : WellFounded (fun d n =>
        n ∈ names ∧ d ∈ subsetDeps tasks names n)) :
    ∃ l, toposort_tasks tasks names = some (.ok l) ∧
      (∀ x, x ∈ l ↔ x ∈ names) ∧ l.Nodup ∧
      (∀ k m, l[k]? = some m → ∀ d ∈ depsOf tasks m, d ∈ names →
        ∃ j : Nat, j < k ∧ l[j]? = some d) := by
  obtain ⟨res, indegF, hrun, hinvF⟩ := kahnLoop_run tasks names hnd
    (names.length + 1) _ _ [] (kahnInv_init tasks names hnd) (by simp)
  have hcomplete : ∀ n ∈ names, n ∈ res := by
    by_contra hc
    push_neg at hc
    obtain ⟨n0, hn0, hn0r⟩ := hc
    obtain ⟨m, hmS, hmin⟩ := hwf.has_min {x | x ∈ names ∧ x ∉ res}
      ⟨n0, hn0, hn0r⟩
    have hqi := hinvF.queue_iff m hmS.1
    have hno : ¬ (m ∉ res ∧ ∀ d ∈ subsetDeps tasks names m, d ∈ res) :=
      fun h => absurd (hqi.mpr h) (List.not_mem_nil m)
    push_neg at hno
    obtain ⟨d, hd, hdr⟩ := hno hmS.2
    have hdn : d ∈ names := ((mem_subsetDeps tasks names m d).mp hd).2
    exact hmin d ⟨hdn, hdr⟩ ⟨hmS.1, hd⟩
  have hmemiff : ∀ x, x ∈ res ↔ x ∈ names := fun x =>
    ⟨fun hx => hinvF.subset x (by simp [hx]), fun hx => hcomplete x hx⟩
  have hres_nodup : res.Nodup := by
    have := hinvF.nodup
    simpa using this
  have hlen : res.length = names.length :=
    le_antisymm
      ((List.subperm_of_subset hres_nodup
        (fun x hx => (hmemiff x).mp hx)).length_le)
      ((List.subperm_of_subset hnd (fun x hx => hcomplete x hx)).length_le)
  refine ⟨res, ?_, hmemiff, hres_nodup, ?_⟩
  · unfold toposort_tasks
    rw [hrun]
    simp [hlen]
  · intro k m hk d hd hdn
    have hdm : d ∈ subsetDeps tasks names m :=
      (mem_subsetDeps tasks names m d).mpr ⟨hd, hdn⟩
    exact mem_take_exists res k d (hinvF.order k m hk d hdm)

/-- A successful validation makes the in-subset dependency relation
well-founded (rank = position in the DFS blackening order). -/
theorem validate_wf (tasks : Tasks) (roots names : List String)
    (hval : validate_depends_on tasks roots = some (.ok ()))
    (hnames : ∀ n ∈ names, n ∈ roots) :
    WellFounded (fun d n => n ∈ names ∧ d ∈ subsetDeps tasks names n) := by
  obtain ⟨bl, hblnd, hcov, horder⟩ := validate_ok_blackorder tasks roots hval
  constructor
  intro x
  have hacc : ∀ k : Nat, ∀ x : String, bl[k]? = some x →
      Acc (fun d n => n ∈ names ∧ d ∈ subsetDeps tasks names n) x := by
    intro k
    induction k using Nat.strong_induction_on with
    | _ k ih =>
        intro y hk
        constructor
        intro d hdr
        have hd_deps : d ∈ depsOf tasks y :=
          ((mem_subsetDeps tasks names y d).mp hdr.2).1
        obtain ⟨j, hj, hbj⟩ :=
          mem_take_exists bl k d (horder k y hk d hd_deps)
        exact ih j hj d hbj
  by_cases hx : x ∈ names
  · obtain ⟨k, hk⟩ := List.mem_iff_getElem?.mp (hcov x (hnames x hx))
    exact hacc k x hk
  · constructor
    intro d hdr
    exact absurd hdr.1 hx

/-- **C3.** For every subset of task names of a successfully validated task
graph (for any DFS root order covering the keys), `_toposort_tasks` succeeds
and returns a duplicate-free ordering of exactly the subset in which every
task appears strictly after each of its dependencies that also lies in the
subset; and on the concrete graph `db ← api ← web` the sort of
`["db","api","web"]` returns exactly `["db","api","web"]`. -/
theorem c3_topological_order (tasks : Tasks) (roots names : List String)
    (hval : validate_depends_on tasks roots = some (.ok ()))
    (hnd : names.Nodup)
    (hkeys : ∀ n ∈ names, n ∈ taskKeys tasks)
    (hroots : ∀ k ∈ taskKeys tasks, k ∈ roots) :
    (∃ l, toposort_tasks tasks names = some (.ok l) ∧
      (∀ x, x ∈ l ↔ x ∈ names) ∧ l.Nodup ∧
      (∀ k m, l[k]? = some m → ∀ d ∈ depsOf tasks m, d ∈ names →
        ∃ j : Nat, j < k ∧ l[j]? = some d)) ∧
    toposort_tasks tasksC3 ["db", "api", "web"]
      = some (.ok ["db", "api", "web"]) := by
  constructor
  · exact toposort_complete tasks names hnd
      (validate_wf tasks roots names hval
        (fun n hn => hroots n (hkeys n hn)))
  · rfl

theorem realizes_label (t : String) (e : Event) (h : realizesTask t e) :
    eventTask e = some t := by
  cases e <;> simp [realizesTask, eventTask] at h ⊢ <;> exact h

theorem runHookEv_label (hookOk : String → Bool) (cmd : Option String)
    (task : Option String) :
    ∀ e ∈ (runHookEv hookOk cmd task).2, ∃ c, e = Event.hookRun c task := by
  intro e he
  cases cmd with
  | none => simp [runHookEv] at he
  | some c =>
      simp [runHookEv] at he
      exact ⟨c, he⟩

theorem perTaskEvents_label (auto : Tasks) (waitOk : String → Nat → Bool)
    (hookOk : String → Bool) (f : Bool) (n : String) (cfg : TaskConfig) :
    ∀ e ∈ (perTaskEvents auto waitOk hookOk f n cfg).2,
      eventTask e = some n := by
  intro e he
  unfold perTaskEvents at he
  cases hscan : depScan auto waitOk cfg.depends_on with
  | some dep =>
      rw [hscan] at he
      simp at he
      subst he
      rfl
  | none =>
      rw [hscan] at he
      simp only [] at he
      rcases List.mem_append.mp he with h12 | h3
      · rcases List.mem_append.mp h12 with h1 | h2
        · obtain ⟨c, rfl⟩ :=
            runHookEv_label hookOk cfg.hooks.before_start (some n) e h1
          rfl
        · by_cases hf : f = true
          · rw [if_pos hf] at h2
            cases hcwd : cfg.cwd with
            | some c =>
                rw [hcwd] at h2
                simp at h2
                rcases h2 with rfl | rfl | rfl <;> rfl
            | none =>
                rw [hcwd] at h2
                simp at h2
                rcases h2 with rfl | rfl <;> rfl
          · rw [if_neg hf] at h2
            simp at h2
            rcases h2 with rfl | rfl <;> rfl
      · obtain ⟨c, rfl⟩ :=
          runHookEv_label hookOk cfg.hooks.after_start (some n) e h3
        rfl

theorem foldTasks_label (auto : Tasks) (waitOk : String → Nat → Bool)
    (hookOk : String → Bool) :
    ∀ (L : Tasks) (f : Bool) (e : Event),
      e ∈ foldTasks auto waitOk hookOk L f →
      ∃ p, p ∈ L ∧ eventTask e = some p.1 := by
  intro L
  induction L with
  | nil =>
      intro f e he
      simp [foldTasks] at he
  | cons p rest ih =>
      obtain ⟨n, cfg⟩ := p
      intro f e he
      simp only [foldTasks] at he
      rcases List.mem_append.mp he with h | h
      · exact ⟨(n, cfg), by simp,
          perTaskEvents_label auto waitOk hookOk f n cfg e h⟩
      · obtain ⟨q, hq, hlab⟩ := ih _ e h
        exact ⟨q, by simp [hq], hlab⟩

theorem foldTasks_append (auto : Tasks) (waitOk : String → Nat → Bool)
    (hookOk : String → Bool) :
    ∀ (A B : Tasks) (f : Bool),
      foldTasks auto waitOk hookOk (A ++ B) f
        = foldTasks auto waitOk hookOk A f ++
          foldTasks auto waitOk hookOk B
            (foldFirst auto waitOk hookOk A f) := by
  intro A
  induction A with
  | nil =>
      intro B f
      simp [foldTasks, foldFirst]
  | cons p rest ih =>
      obtain ⟨n, cfg⟩ := p
      intro B f
      simp only [List.cons_append, foldTasks, foldFirst, List.append_assoc]
      rw [show rest.append B = rest ++ B from rfl, ih]

theorem mem_orderedTasks (auto : Tasks) (l : List String)
    (p : String × TaskConfig) (h : p ∈ orderedTasks auto l) : p.1 ∈ l := by
  unfold orderedTasks at h
  rw [List.mem_filterMap] at h
  obtain ⟨n, hn, hmap⟩ := h
  obtain ⟨c, -, hp⟩ := Option.map_eq_some'.mp hmap
  rw [← hp]
  exact hn

theorem orderedTasks_append (auto : Tasks) (l1 l2 : List String) :
    orderedTasks auto (l1 ++ l2)
      = orderedTasks auto l1 ++ orderedTasks auto l2 := by
  unfold orderedTasks
  rw [List.filterMap_append]

/-! ## Claim C10 — session creation gated on the global before-start hook -/
/-- **C10.** In `start_all`, once the auto-start subset is non-empty and the
topological order has been computed, a failing global before-start hook
makes the whole operation return having emitted only that hook execution:
no session is created and no task's hooks or command are touched. -/
theorem c10_session_gated_on_global_hook (session_name : String)
    (tasks : Tasks) (ghooks : HookConfig) (hookOk : String → Bool)
    (waitOk : String → Nat → Bool) (gc : String) (sorted_names : List String)
    (hne : (tasks.filter (fun p => p.2.auto_start)).isEmpty = false)
    (htopo : toposort_tasks tasks
        (taskKeys (tasks.filter (fun p => p.2.auto_start)))
        = some (.ok sorted_names))
    (hgc : ghooks.before_start = some gc)
    (hfail : hookOk gc = false) :
    start_all_events session_name true tasks ghooks false hookOk waitOk
        = some [Event.hookRun gc none] ∧
    (∀ evs, start_all_events session_name true tasks ghooks false hookOk
          waitOk = some evs →
      Event.createdSession ∉ evs ∧
      (∀ t : String, ∀ e ∈ evs, ¬ realizesTask t e)) := by
  have hmain : start_all_events session_name true tasks ghooks false hookOk
      waitOk = some [Event.hookRun gc none] := by
    unfold start_all_events
    simp only [Bool.not_true, Bool.false_eq_true, if_false, hne, htopo, hgc,
      runHookEv, hfail, Bool.not_false, if_true]
  refine ⟨hmain, ?_⟩
  intro evs hevs
  rw [hmain] at hevs
  cases hevs
  constructor
  · simp
  · intro t e he
    simp only [List.mem_singleton] at he
    subst he
    simp [realizesTask]

theorem c10_session_gated_on_global_hook_witness :
    start_all_events "dev" true [("db", cfgC10)]
        { before_start := some "gb" } false (fun _ => false)
        (fun _ _ => true)
      = some [Event.hookRun "gb" none] ∧
    (∀ evs, start_all_events "dev" true [("db", cfgC10)]
          { before_start := some "gb" } false (fun _ => false)
          (fun _ _ => true) = some evs →
      Event.createdSession ∉ evs ∧
      (∀ t : String, ∀ e ∈ evs, ¬ realizesTask t e)) :=
  c10_session_gated_on_global_hook "dev" [("db", cfgC10)]
    { before_start := some "gb" } (fun _ => false) (fun _ _ => true)
    "gb" ["db"] (by decide) (by rfl) (by rfl) (by rfl)

/-! ## Claim C9 — before-start hooks gate a start; other hooks never abort -/
/-- **C9.** In `start_task`: a failing global before-start hook aborts the
start right after the dependency warnings (no realization, no further
hooks); a failing task before-start hook aborts likewise after the global
hook; when both before-start hooks succeed the full sequence — realization,
task after-start hook, global after-start hook, completion message — runs
for every hook outcome (so after-start failures abort nothing).  In
`stop_task` the whole sequence — both before-stop hooks, the interrupt,
both after-stop hooks, completion message — runs for every hook outcome. -/
theorem c9_hook_gating :
    (∀ (tasks : Tasks) (ghooks : HookConfig) (name : String)
        (sessionExists : Bool) (windows : List String)
        (hookOk : String → Bool) (cfg : TaskConfig) (gc : String),
      assocLookup tasks name = some cfg →
      windows.contains name = false →
      ghooks.before_start = some gc →
      hookOk gc = false →
      start_task_events tasks ghooks name sessionExists windows hookOk
        = (if sessionExists then [] else [Event.createdSession]) ++
          cfg.depends_on.filterMap (fun dep =>
            if windows.contains dep then none
            else some (Event.warnDepNotRunning dep)) ++
          [Event.hookRun gc (some name)] ∧
      (∀ e ∈ start_task_events tasks ghooks name sessionExists windows hookOk,
        ¬ realizesTask name e)) ∧
    (∀ (tasks : Tasks) (ghooks : HookConfig) (name : String)
        (sessionExists : Bool) (windows : List String)
        (hookOk : String → Bool) (cfg : TaskConfig) (tc : String),
      assocLookup tasks name = some cfg →
      windows.contains name = false →
      (runHookEv hookOk ghooks.before_start (some name)).1 = true →
      cfg.hooks.before_start = some tc →
      hookOk tc = false →
      start_task_events tasks ghooks name sessionExists windows hookOk
        = (if sessionExists then [] else [Event.createdSession]) ++
          cfg.depends_on.filterMap (fun dep =>
            if windows.contains dep then none
            else some (Event.warnDepNotRunning dep)) ++
          (runHookEv hookOk ghooks.before_start (some name)).2 ++
          [Event.hookRun tc (some name)] ∧
      (∀ e ∈ start_task_events tasks ghooks name sessionExists windows hookOk,
        ¬ realizesTask name e)) ∧
    (∀ (tasks : Tasks) (ghooks : HookConfig) (name : String)
        (sessionExists : Bool) (windows : List String)
        (hookOk : String → Bool) (cfg : TaskConfig),
      assocLookup tasks name = some cfg →
      windows.contains name = false →
      (runHookEv hookOk ghooks.before_start (some name)).1 = true →
      (runHookEv hookOk cfg.hooks.before_start (some name)).1 = true →
      start_task_events tasks ghooks name sessionExists windows hookOk
        = (if sessionExists then [] else [Event.createdSession]) ++
          cfg.depends_on.filterMap (fun dep =>
            if windows.contains dep then none
            else some (Event.warnDepNotRunning dep)) ++
          (runHookEv hookOk ghooks.before_start (some name)).2 ++
          (runHookEv hookOk cfg.hooks.before_start (some name)).2 ++
          (if windows.length = 1 ∧ windows.headD "" ≠ name then
            if windows.headD "" ∈ ["bash", "zsh", "sh", "fish"] then
              [Event.renamedWindow name] ++
              (match cfg.cwd with
               | some c => [Event.sentKeys name ("cd " ++ c)]
               | none => []) ++
              [Event.sentKeys name cfg.command]
            else
              [Event.createdWindow name, Event.sentKeys name cfg.command]
          else
            [Event.createdWindow name, Event.sentKeys name cfg.command]) ++
          (runHookEv hookOk cfg.hooks.after_start (some name)).2 ++
          (runHookEv hookOk ghooks.after_start (some name)).2 ++
          [Event.printed ("Started task '" ++ name ++ "'")]) ∧
    (∀ (tasks : Tasks) (ghooks : HookConfig) (session_name name : String)
        (windows : List String) (hookOk : String → Bool) (cfg : TaskConfig),
      assocLookup tasks name = some cfg →
      windows.contains name = true →
      stop_task_events tasks ghooks session_name name true windows hookOk
        = (runHookEv hookOk ghooks.before_stop (some name)).2 ++
          (runHookEv hookOk cfg.hooks.before_stop (some name)).2 ++
          [Event.sentInterrupt name] ++
          (runHookEv hookOk cfg.hooks.after_stop (some name)).2 ++
          (runHookEv hookOk ghooks.after_stop (some name)).2 ++
          [Event.printed ("Stopped task '" ++ name ++ "'")]) := by
  refine ⟨?_, ?_, ?_, ?_⟩
  · intro tasks ghooks name sessionExists windows hookOk cfg gc
      hlook hcw hgc hfail
    have hmain : start_task_events tasks ghooks name sessionExists windows
        hookOk
        = (if sessionExists then [] else [Event.createdSession]) ++
          cfg.depends_on.filterMap (fun dep =>
            if windows.contains dep then none
            else some (Event.warnDepNotRunning dep)) ++
          [Event.hookRun gc (some name)] := by
      unfold start_task_events
      rw [hlook]
      simp only [hcw, Bool.false_eq_true, if_false, hgc, runHookEv, hfail,
        Bool.not_false, if_true, List.append_assoc]
    refine ⟨hmain, ?_⟩
    intro e he
    rw [hmain] at he
    intro hreal
    rcases List.mem_append.mp he with h12 | h3
    · rcases List.mem_append.mp h12 with h1 | h2
      · by_cases hs : sessionExists = true
        · rw [if_pos hs] at h1
          exact absurd h1 (List.not_mem_nil e)
        · rw [if_neg hs, List.mem_singleton] at h1
          rw [h1] at hreal
          simp [realizesTask] at hreal
      · rw [List.mem_filterMap] at h2
        obtain ⟨dep, -, hdep⟩ := h2
        by_cases hd : windows.contains dep = true
        · rw [if_pos hd] at hdep
          exact Option.noConfusion hdep
        · rw [if_neg hd] at hdep
          cases hdep
          simp [realizesTask] at hreal
    · rw [List.mem_singleton] at h3
      rw [h3] at hreal
      simp [realizesTask] at hreal
  · intro tasks ghooks name sessionExists windows hookOk cfg tc
      hlook hcw hg htc hfail
    have hmain : start_task_events tasks ghooks name sessionExists windows
        hookOk
        = (if sessionExists then [] else [Event.createdSession]) ++
          cfg.depends_on.filterMap (fun dep =>
            if windows.contains dep then none
            else some (Event.warnDepNotRunning dep)) ++
          (runHookEv hookOk ghooks.before_start (some name)).2 ++
          [Event.hookRun tc (some name)] := by
      unfold start_task_events
      rw [hlook]
      simp only [hcw, Bool.false_eq_true, if_false]
      rw [hg, htc]
      simp only [Bool.not_true, Bool.false_eq_true, if_false, runHookEv,
        hfail, Bool.not_false, if_true, List.append_assoc]
    refine ⟨hmain, ?_⟩
    intro e he
    rw [hmain] at he
    intro hreal
    rcases List.mem_append.mp he with h123 | h4
    · rcases List.mem_append.mp h123 with h12 | h3
      · rcases List.mem_append.mp h12 with h1 | h2
        · by_cases hs : sessionExists = true
          · rw [if_pos hs] at h1
            exact absurd h1 (List.not_mem_nil e)
          · rw [if_neg hs, List.mem_singleton] at h1
            rw [h1] at hreal
            simp [realizesTask] at hreal
        · rw [List.mem_filterMap] at h2
          obtain ⟨dep, -, hdep⟩ := h2
          by_cases hd : windows.contains dep = true
          · rw [if_pos hd] at hdep
            exact Option.noConfusion hdep
          · rw [if_neg hd] at hdep
            cases hdep
            simp [realizesTask] at hreal
      · obtain ⟨c, rfl⟩ :=
          runHookEv_label hookOk ghooks.before_start (some name) e h3
        simp [realizesTask] at hreal
    · rw [List.mem_singleton] at h4
      rw [h4] at hreal
      simp [realizesTask] at hreal
  · intro tasks ghooks name sessionExists windows hookOk cfg hlook hcw hg ht
    unfold start_task_events
    rw [hlook]
    simp only [hcw, Bool.false_eq_true, if_false, hg, ht, Bool.not_true,
      if_true, List.append_assoc]
  · intro tasks ghooks session_name name windows hookOk cfg hlook hcw
    unfold stop_task_events
    rw [hlook]
    simp only [hcw, Bool.not_true, Bool.false_eq_true, if_false, if_true,
      List.append_assoc]

theorem c9_hook_gating_witness :
    (start_task_events tasksC9 ghooksC9 "web" false [] hookOkA
        = [Event.createdSession, Event.warnDepNotRunning "db",
           Event.hookRun "gb" (some "web")] ∧
      (∀ e ∈ start_task_events tasksC9 ghooksC9 "web" false [] hookOkA,
        ¬ realizesTask "web" e)) ∧
    (start_task_events tasksC9 ghooksC9 "web" false [] hookOkB
        = [Event.createdSession, Event.warnDepNotRunning "db",
           Event.hookRun "gb" (some "web"), Event.hookRun "tb" (some "web")] ∧
      (∀ e ∈ start_task_events tasksC9 ghooksC9 "web" false [] hookOkB,
        ¬ realizesTask "web" e)) ∧
    (start_task_events tasksC9 ghooksC9 "web" false [] hookOkC
        = [Event.createdSession, Event.warnDepNotRunning "db",
           Event.hookRun "gb" (some "web"), Event.hookRun "tb" (some "web"),
           Event.createdWindow "web", Event.sentKeys "web" "npm run dev",
           Event.hookRun "ta" (some "web"), Event.hookRun "ga" (some "web"),
           Event.printed "Started task 'web'"]) ∧
    (stop_task_events tasksC9 ghooksC9 "dev" "web" true ["web"] hookOkA
        = [Event.hookRun "gsb" (some "web"), Event.hookRun "sb" (some "web"),
           Event.sentInterrupt "web", Event.hookRun "sa" (some "web"),
           Event.hookRun "gsa" (some "web"),
           Event.printed "Stopped task 'web'"]) :=
  ⟨c9_hook_gating.1 tasksC9 ghooksC9 "web" false [] hookOkA cfgC9 "gb"
      rfl rfl rfl rfl,
   c9_hook_gating.2.1 tasksC9 ghooksC9 "web" false [] hookOkB cfgC9 "tb"
      rfl rfl rfl rfl rfl,
   c9_hook_gating.2.2.1 tasksC9 ghooksC9 "web" false [] hookOkC cfgC9
      rfl rfl rfl rfl,
   c9_hook_gating.2.2.2 tasksC9 ghooksC9 "dev" "web" ["web"] hookOkA cfgC9
      rfl rfl⟩

/-! ## Claim C6 — dependency-wait timeout skips the task, siblings go on -/
/-- **C6.** During `start_all`, a task in the computed order whose first
failing auto-start dependency does not become healthy within the derived
timeout (`health_retries × health_interval` of the dependency, which is the
timeout `depScan` hands to the wait) is skipped with a warning naming the
dependency and the task; its before-start hook never runs and its command is
never realized in any pane, while the fold simply continues with the
remaining tasks in order. -/
theorem c6_skip_on_unhealthy_dep (session_name : String) (tasks : Tasks)
    (ghooks : HookConfig) (hookOk : String → Bool)
    (waitOk : String → Nat → Bool) (sorted_names pre rest2 : List String)
    (t d : String) (tcfg : TaskConfig)
    (hne : (tasks.filter (fun p => p.2.auto_start)).isEmpty = false)
    (htopo : toposort_tasks tasks
        (taskKeys (tasks.filter (fun p => p.2.auto_start)))
        = some (.ok sorted_names))
    (hg : (runHookEv hookOk ghooks.before_start none).1 = true)
    (hsorted : sorted_names = pre ++ t :: rest2)
    (htpre : t ∉ pre) (htrest : t ∉ rest2)
    (hlookup : assocLookup (tasks.filter (fun p => p.2.auto_start)) t
        = some tcfg)
    (hscan : depScan (tasks.filter (fun p => p.2.auto_start)) waitOk
        tcfg.depends_on = some d) :
    ∃ evs, start_all_events session_name true tasks ghooks false hookOk waitOk
        = some evs ∧
      Event.warnDepNotHealthy d t ∈ evs ∧
      (∀ e ∈ evs, ¬ realizesTask t e) ∧
      (∀ c, Event.hookRun c (some t) ∉ evs) ∧
      (∀ f, foldTasks (tasks.filter (fun p => p.2.auto_start)) waitOk hookOk
          (orderedTasks (tasks.filter (fun p => p.2.auto_start)) (t :: rest2))
          f
        = Event.warnDepNotHealthy d t ::
          foldTasks (tasks.filter (fun p => p.2.auto_start)) waitOk hookOk
            (orderedTasks (tasks.filter (fun p => p.2.auto_start)) rest2)
            f) := by
  set auto := tasks.filter (fun p => p.2.auto_start) with hauto
  have hordt : orderedTasks auto (t :: rest2)
      = (t, tcfg) :: orderedTasks auto rest2 := by
    unfold orderedTasks
    rw [List.filterMap_cons]
    rw [hlookup]
    rfl
  have hgen : ∀ f, foldTasks auto waitOk hookOk
      (orderedTasks auto (t :: rest2)) f
      = Event.warnDepNotHealthy d t ::
        foldTasks auto waitOk hookOk (orderedTasks auto rest2) f := by
    intro f
    rw [hordt]
    show (perTaskEvents auto waitOk hookOk f t tcfg).2 ++ _ = _
    unfold perTaskEvents
    rw [hscan]
    rfl
  have hmain : start_all_events session_name true tasks ghooks false hookOk
      waitOk
      = some ((runHookEv hookOk ghooks.before_start none).2 ++
          [Event.createdSession] ++
          foldTasks auto waitOk hookOk (orderedTasks auto sorted_names)
            true ++
          (runHookEv hookOk ghooks.after_start none).2 ++
          [Event.printed ("Started session '" ++ session_name ++ "' with "
            ++ toString auto.length ++ " tasks")]) := by
    unfold start_all_events
    simp only [Bool.not_true, Bool.false_eq_true, if_false, ← hauto, hne,
      htopo, hg, Bool.not_false, if_true]
  have hfoldside : ∀ (L : List String) (f : Bool), t ∉ L →
      ∀ e ∈ foldTasks auto waitOk hookOk (orderedTasks auto L) f,
        ¬ realizesTask t e ∧ ∀ c, e ≠ Event.hookRun c (some t) := by
    intro L f htL e he
    obtain ⟨p, hp, hlab⟩ :=
      foldTasks_label auto waitOk hookOk (orderedTasks auto L) f e he
    have hpt : p.1 ≠ t := fun h => htL (h ▸ mem_orderedTasks auto L p hp)
    constructor
    · intro hr
      have hl2 := realizes_label t e hr
      rw [hl2] at hlab
      exact hpt (Option.some_inj.mp hlab).symm
    · intro c hce
      rw [hce] at hlab
      simp only [eventTask] at hlab
      exact hpt (Option.some_inj.mp hlab).symm
  have hsplit : foldTasks auto waitOk hookOk (orderedTasks auto sorted_names)
      true
      = foldTasks auto waitOk hookOk (orderedTasks auto pre) true ++
        (Event.warnDepNotHealthy d t ::
          foldTasks auto waitOk hookOk (orderedTasks auto rest2)
            (foldFirst auto waitOk hookOk (orderedTasks auto pre) true)) := by
    rw [hsorted, orderedTasks_append, foldTasks_append, hgen]
  refine ⟨_, hmain, ?_, ?_, ?_, hgen⟩
  · rw [hsplit]
    simp [List.mem_append]
  · intro e he
    rcases List.mem_append.mp he with h1234 | h5
    · rcases List.mem_append.mp h1234 with h123 | h4
      · rcases List.mem_append.mp h123 with h12 | h3
        · rcases List.mem_append.mp h12 with h1 | h2
          · obtain ⟨c, rfl⟩ :=
              runHookEv_label hookOk ghooks.before_start none e h1
            simp [realizesTask]
          · rw [List.mem_singleton] at h2
            rw [h2]
            simp [realizesTask]
        · rw [hsplit] at h3
          rcases List.mem_append.mp h3 with ha | hb
          · exact (hfoldside pre true htpre e ha).1
          · rcases List.mem_cons.mp hb with rfl | hc
            · simp [realizesTask]
            · exact (hfoldside rest2 _ htrest e hc).1
      · obtain ⟨c, rfl⟩ :=
          runHookEv_label hookOk ghooks.after_start none e h4
        simp [realizesTask]
    · rw [List.mem_singleton] at h5
      rw [h5]
      simp [realizesTask]
  · intro c hce
    rcases List.mem_append.mp hce with h1234 | h5
    · rcases List.mem_append.mp h1234 with h123 | h4
      · rcases List.mem_append.mp h123 with h12 | h3
        · rcases List.mem_append.mp h12 with h1 | h2
          · obtain ⟨c2, heq⟩ :=
              runHookEv_label hookOk ghooks.before_start none _ h1
            exact Option.noConfusion (Event.hookRun.inj heq.symm).2
          · rw [List.mem_singleton] at h2
            exact Event.noConfusion h2
        · rw [hsplit] at h3
          rcases List.mem_append.mp h3 with ha | hb
          · exact (hfoldside pre true htpre _ ha).2 c rfl
          · rcases List.mem_cons.mp hb with heq | hc
            · exact Event.noConfusion heq
            · exact (hfoldside rest2 _ htrest _ hc).2 c rfl
      · obtain ⟨c2, heq⟩ :=
          runHookEv_label hookOk ghooks.after_start none _ h4
        exact Option.noConfusion (Event.hookRun.inj heq.symm).2
    · rw [List.mem_singleton] at h5
      exact Event.noConfusion h5

theorem c6_skip_on_unhealthy_dep_witness :
    ∃ evs, start_all_events "dev" true tasksC6 {} false (fun _ => true)
        (fun _ _ => false) = some evs ∧
      Event.warnDepNotHealthy "db" "api" ∈ evs ∧
      (∀ e ∈ evs, ¬ realizesTask "api" e) ∧
      (∀ c, Event.hookRun c (some "api") ∉ evs) ∧
      (∀ f, foldTasks (tasksC6.filter (fun p => p.2.auto_start))
          (fun _ _ => false) (fun _ => true)
          (orderedTasks (tasksC6.filter (fun p => p.2.auto_start))
            ("api" :: []))
          f
        = Event.warnDepNotHealthy "db" "api" ::
          foldTasks (tasksC6.filter (fun p => p.2.auto_start))
            (fun _ _ => false) (fun _ => true)
            (orderedTasks (tasksC6.filter (fun p => p.2.auto_start)) [])
            f) :=
  c6_skip_on_unhealthy_dep "dev" tasksC6 {} (fun _ => true) (fun _ _ => false)
    ["db", "api"] ["db"] [] "api" "db" cfgApi (by rfl) (by rfl) (by rfl)
    (by rfl) (by decide) (by decide) (by rfl) (by rfl)

theorem c3_topological_order_witness :
    (∃ l, toposort_tasks tasksC3 ["db", "api", "web"] = some (.ok l) ∧
      (∀ x, x ∈ l ↔ x ∈ ["db", "api", "web"]) ∧ l.Nodup ∧
      (∀ k m, l[k]? = some m → ∀ d ∈ depsOf tasksC3 m,
        d ∈ ["db", "api", "web"] →
        ∃ j : Nat, j < k ∧ l[j]? = some d)) ∧
    toposort_tasks tasksC3 ["db", "api", "web"]
      = some (.ok ["db", "api", "web"]) :=
  c3_topological_order tasksC3 ["db", "api", "web"] ["db", "api", "web"]
    (by rfl) (by decide) (by decide) (by decide)

end Taskmux
